import Mathlib

/-!
# OOTuple: `TP::experimental::Tuple` and `makeTuple`

A shallow embedding of `src/tuple.hpp`.

Objects live in a heap of storage cells.  A tuple object is described by the
address each of its `_head` members denotes as an lvalue: for the recursive
class `Tuple<THead, TTail...>` this is the cell inside the object that holds
the member, for the specialization `Tuple<THead &, TTail...>` it is
the cell of the referent the reference member is bound to.  The static type of
a tuple (which specialization is used at each level of the inheritance chain)
is an index of the Lean type, so that the binary operations (`operator=`,
`swap`) only accept two tuples of the same concrete type, as in C++.
-/

namespace TP
namespace experimental

/-- The memory of the program.  Storage cells are addressed by natural
numbers; the heap records the contents of every cell, and the first
address that has not been handed out yet (cells below `next` are the storage
of objects that have been created). -/
structure Heap (α : Type) where
  mem : Nat → α
  next : Nat

/-- Lvalue-to-rvalue conversion: the value held by cell `l`. -/
def Heap.read {α : Type} (h : Heap α) (l : Nat) : α :=
  h.mem l

/-- Assignment through an lvalue: cell `l` now holds `v`. -/
def Heap.write {α : Type} (h : Heap α) (l : Nat) (v : α) : Heap α :=
  { mem := fun k => if k = l then v else h.mem k, next := h.next }

/-- Storage for a new sub-object initialised with `v`: the cell handed out is
`h.next`, which no existing object occupies. -/
def Heap.alloc {α : Type} (h : Heap α) (v : α) : Nat × Heap α :=
  (h.next, { mem := fun k => if k = h.next then v else h.mem k, next := h.next + 1 })

/-- The two shapes an element type of a `Tuple` can have: a non-reference type
(selecting the recursive class `Tuple<THead, TTail...>`, member `THead _head`) or an lvalue
reference type (selecting the specialization `Tuple<THead &, TTail...>`, member
`THead & _head`). -/
inductive Kind where
  | value
  | reference
  deriving DecidableEq

/-- A tuple object of static type `Tuple<T0, ..., Tn-1>`, where the index lists
for each `Ti` whether it is a reference type.  `nil` is the empty base
`Tuple<>`; `val p base` is `Tuple<THead, TTail...>` whose member `_head` is
stored in cell `p`; `ref x base` is `Tuple<THead &, TTail...>` whose member
`_head` is bound to the cell `x`.  `base` is the base-class sub-object
`Tuple<TTail...>`.  The cells are fixed when the object is constructed: the
storage of a member does not move, and a reference member cannot be bound
again; the operations on constructed objects change the memory only. -/
inductive Tuple : List Kind → Type where
  | nil : Tuple []
  | val {ks : List Kind} (_head : Nat) (base : Tuple ks) : Tuple (Kind.value :: ks)
  | ref {ks : List Kind} (_head : Nat) (base : Tuple ks) : Tuple (Kind.reference :: ks)

/-- One argument of a `makeTuple` call, after `tuple_element_decay_t` has been
applied to its deduced type `TArgs`.  `plain v`: the primary trait applies
(`std::decay`), the slot is a copy of the argument, whose value is `v`.
`ref x`: the argument is a `std::reference_wrapper<T>` rvalue (`std::ref(x)`),
the trait's specialization yields `T &`, and the wrapper converts to an lvalue
for the cell `x`. -/
inductive Arg (α : Type) where
  | plain (v : α)
  | ref (x : Nat)

/-- The shape of `tuple_element_decay_t<TArgs>` for an argument. -/
def Arg.kind {α : Type} : Arg α → Kind
  | .plain _ => Kind.value
  | .ref _ => Kind.reference

/-- The value an argument expression has in heap `h` (for `std::ref(x)`, the
value of `x`, which the wrapper converts to). -/
def Arg.value {α : Type} (h : Heap α) : Arg α → α
  | .plain v => v
  | .ref x => h.read x

/-- The protected constructors `Tuple( const THead & head, const TTail & ...tail )`
and `Tuple( THead & head, const TTail & ...tail )`: the base class
`Tuple<TTail...>( tail... )` is initialised first, then `_head( head )`, which
copy-constructs the member into the object's own storage, or binds the
reference member to `head`. -/
def Tuple.ctor {α : Type} : (args : List (Arg α)) → Heap α → Tuple (args.map Arg.kind) × Heap α
  | [], h => (Tuple.nil, h)
  | Arg.plain v :: tail, h =>
    let r := Tuple.ctor tail h
    let a := r.2.alloc v
    (Tuple.val a.1 r.1, a.2)
  | Arg.ref x :: tail, h =>
    let r := Tuple.ctor tail h
    (Tuple.ref x r.1, r.2)

/-- The move constructors `Tuple( TSelf && other )`: the base class is
move-constructed from the base of `other` first; then, for a non-reference
head, `_head( std::move( other._head ) )` constructs the member in the new object's
storage from the value of `other._head`, leaving `other._head` in its
moved-from state `moved v`; in the reference specialization
`_head( other._head )` binds the member to the referent of `other._head`. -/
def Tuple.moveCtor {α : Type} (moved : α → α) : {ks : List Kind} → Tuple ks → Heap α → Tuple ks × Heap α
  | _, Tuple.nil, h => (Tuple.nil, h)
  | _, Tuple.val p base, h =>
    let r := Tuple.moveCtor moved base h
    let v := r.2.read p
    let a := r.2.alloc v
    (Tuple.val a.1 r.1, a.2.write p (moved v))
  | _, Tuple.ref x base, h =>
    let r := Tuple.moveCtor moved base h
    (Tuple.ref x r.1, r.2)

/-- The free function `makeTuple( TArgs && ...args )`: the local class `_Tuple`
forwards its parameters to the protected constructor of its base
`Tuple<tuple_element_decay_t<TArgs>...>`; the returned object is
move-constructed from the base sub-object of that temporary. -/
def makeTuple {α : Type} (moved : α → α) (args : List (Arg α)) (h : Heap α) :
    Tuple (args.map Arg.kind) × Heap α :=
  let tmp := Tuple.ctor args h
  Tuple.moveCtor moved tmp.1 tmp.2

/-- The unnamed enum `Length = sizeof...( TTail ) + 1`, declared by the
recursive class and by its reference specialization.  The empty base `Tuple<>`
declares no such member: there the result is `none`. -/
def Tuple.Length : {ks : List Kind} → Tuple ks → Option Nat
  | _, Tuple.nil => none
  | _, @Tuple.val ks _ _ => some (ks.length + 1)
  | _, @Tuple.ref ks _ _ => some (ks.length + 1)

/-- The member `THead & head( void )`, `return _head;`: the lvalue the member
`_head` denotes.  The empty base `Tuple<>` has no such member (`none`). -/
def Tuple.head : {ks : List Kind} → Tuple ks → Option Nat
  | _, Tuple.nil => none
  | _, Tuple.val p _ => some p
  | _, Tuple.ref x _ => some x

/-- The conversion `static_cast<tuple_t<index, THead, TTail...> *>( this )`: the
base-class sub-object reached after stripping the first `index` levels of the
inheritance chain (`tuple_accessor` recurses on `VIndex - 1` and `TTail...`
until the index is 0). -/
def Tuple.upcast : (index : Nat) → {ks : List Kind} → Tuple ks → Tuple (ks.drop index)
  | 0, _, t => t
  | _ + 1, _, Tuple.nil => Tuple.nil
  | i + 1, _, Tuple.val _ base => Tuple.upcast i base
  | i + 1, _, Tuple.ref _ base => Tuple.upcast i base

/-- The member template `get<index>()`, enabled only if `index < Length`:
`static_cast<tuple_t<index, ...> *>( this )->head()`.  The result is the lvalue
returned, `none` when the expression is ill-formed. -/
def Tuple.get (index : Nat) {ks : List Kind} (t : Tuple ks) : Option Nat :=
  match t.Length with
  | some n => if index < n then (Tuple.upcast index t).head else none
  | none => none

/-- The member `tail()`, enabled only if `Length > 0`:
`static_cast<tuple_t<Length - 1, ...> *>( this )->head()`. -/
def Tuple.tail {ks : List Kind} (t : Tuple ks) : Option Nat :=
  match t.Length with
  | some n => if 0 < n then (Tuple.upcast (n - 1) t).head else none
  | none => none

/-- The copy constructors `Tuple( const TSelf & other )`: the base class is
copy-constructed from `other` first, then `_head( other._head )` copies the
member into the new object's storage (non-reference head) or binds the reference
member to the referent of `other._head` (reference specialization). -/
def Tuple.copyCtor {α : Type} : {ks : List Kind} → Tuple ks → Heap α → Tuple ks × Heap α
  | _, Tuple.nil, h => (Tuple.nil, h)
  | _, Tuple.val p base, h =>
    let r := Tuple.copyCtor base h
    let a := r.2.alloc (r.2.read p)
    (Tuple.val a.1 r.1, a.2)
  | _, Tuple.ref x base, h =>
    let r := Tuple.copyCtor base h
    (Tuple.ref x r.1, r.2)

/-- The copy assignment operators `TSelf & operator=( TSelf & other )`, called
on `self`: the base sub-objects are assigned first, then
`_head = other._head;` assigns the value of the lvalue `other._head` to the
lvalue `_head`.  The operator returns `*this`; only the memory changes. -/
def Tuple.copyAssign {α : Type} : {ks : List Kind} → Tuple ks → Tuple ks → Heap α → Heap α
  | _, Tuple.nil, Tuple.nil, h => h
  | _, Tuple.val p base, Tuple.val q obase, h =>
    let h1 := Tuple.copyAssign base obase h
    h1.write p (h1.read q)
  | _, Tuple.ref x base, Tuple.ref y obase, h =>
    let h1 := Tuple.copyAssign base obase h
    h1.write x (h1.read y)

/-- The library function `std::swap( a, b )` on two lvalues of an element
type: afterwards `a` holds the value `b` had and `b` the value `a` had (when
both denote the same cell, it keeps its value). -/
def std_swap {α : Type} (a b : Nat) (h : Heap α) : Heap α :=
  let tmp := h.read a
  (h.write a (h.read b)).write b tmp

/-- The friend functions `swap( TSelf & self, TSelf & other )`: the base
sub-objects are swapped first, then `swap( self._head, other._head )` is
`std::swap` on the two lvalues.  For the empty base, `std::swap` has no member
to exchange. -/
def swap {α : Type} : {ks : List Kind} → Tuple ks → Tuple ks → Heap α → Heap α
  | _, Tuple.nil, Tuple.nil, h => h
  | _, Tuple.val p base, Tuple.val q obase, h =>
    std_swap p q (swap base obase h)
  | _, Tuple.ref x base, Tuple.ref y obase, h =>
    std_swap x y (swap base obase h)

/-- The move assignment operators `TSelf & operator=( TSelf && other )`, called
on `self`: `swap( *this, other ); return *this;`. -/
def Tuple.moveAssign {α : Type} {ks : List Kind} (self other : Tuple ks) (h : Heap α) : Heap α :=
  swap self other h


/-- The cells of a tuple object's own storage: the `_head` members of the
levels whose head is not a reference, head first. -/
def Tuple.owned : {ks : List Kind} → Tuple ks → List Nat
  | _, Tuple.nil => []
  | _, Tuple.val p base => p :: Tuple.owned base
  | _, Tuple.ref _ base => Tuple.owned base

/-- The referents of a tuple object's reference members, head first. -/
def Tuple.referents : {ks : List Kind} → Tuple ks → List Nat
  | _, Tuple.nil => []
  | _, Tuple.val _ base => Tuple.referents base
  | _, Tuple.ref x base => x :: Tuple.referents base

/-- A memory in which three variables exist, at the cells 0, 1 and 2, holding
10, 20 and 30, and in which the cells 3 and 4, holding 40 and 50, are the own
storage of two tuple objects. -/
def exampleHeap : Heap Nat :=
  { mem := fun k =>
      if k = 0 then 10 else if k = 1 then 20 else if k = 2 then 30
      else if k = 3 then 40 else if k = 4 then 50 else 0,
    next := 5 }

/-- A one-slot tuple whose reference member is bound to the variable at cell 0. -/
def exampleRefX : Tuple [Kind.reference] :=
  Tuple.ref 0 Tuple.nil

/-- A one-slot tuple whose reference member is bound to the variable at cell 1. -/
def exampleRefY : Tuple [Kind.reference] :=
  Tuple.ref 1 Tuple.nil

/-- A two-slot tuple whose reference members are both bound to the variable at
cell 0. -/
def exampleRefXX : Tuple [Kind.reference, Kind.reference] :=
  Tuple.ref 0 (Tuple.ref 0 Tuple.nil)

/-- A two-slot tuple whose reference members are bound to the variables at the
cells 1 and 2. -/
def exampleRefYZ : Tuple [Kind.reference, Kind.reference] :=
  Tuple.ref 1 (Tuple.ref 2 Tuple.nil)

/-- A two-slot tuple of type `Tuple<T, T &>`: the first member is stored in
cell 3, the reference member is bound to the variable at cell 0. -/
def exampleA : Tuple [Kind.value, Kind.reference] :=
  Tuple.val 3 (Tuple.ref 0 Tuple.nil)

/-- A second tuple of type `Tuple<T, T &>`: the first member is stored in
cell 4, the reference member is bound to the variable at cell 1. -/
def exampleB : Tuple [Kind.value, Kind.reference] :=
  Tuple.val 4 (Tuple.ref 1 Tuple.nil)

/-- A one-slot tuple of type `Tuple<T>` whose member is stored in cell 3. -/
def exampleValP : Tuple [Kind.value] :=
  Tuple.val 3 Tuple.nil

/-- A second tuple of type `Tuple<T>`, whose member is stored in cell 4. -/
def exampleValQ : Tuple [Kind.value] :=
  Tuple.val 4 Tuple.nil

/-! ## Types: the Decay Rule and the Index Resolver -/

/-- The object and function types of the program, as far as the traits used by
`tuple.hpp` tell them apart.  `named c v id` is a fundamental or class type
(`int`, `std::string`, ...), `pointer c v T` is `T *`, `array T n` is `T[n]`,
`function id` is a function type, and `reference_wrapper c v T` is
`std::reference_wrapper<T>`; the flags `c` and `v` are the top-level `const`
and `volatile` qualifiers (an array is qualified as its elements are). -/
inductive ObjType where
  | named (isConst isVolatile : Bool) (id : Nat)
  | pointer (isConst isVolatile : Bool) (pointee : ObjType)
  | array (element : ObjType) (extent : Nat)
  | function (id : Nat)
  | reference_wrapper (isConst isVolatile : Bool) (T : ObjType)
  deriving DecidableEq

/-- A type as it can be given to a template parameter: an object or function
type `T`, an lvalue reference `T &` or an rvalue reference `T &&`. -/
inductive CType where
  | object (T : ObjType)
  | lref (T : ObjType)
  | rref (T : ObjType)
  deriving DecidableEq

/-- The library trait `std::remove_reference`. -/
def std_remove_reference : CType → ObjType
  | CType.object T => T
  | CType.lref T => T
  | CType.rref T => T

/-- The library trait `std::remove_cv`: the top-level qualifiers are dropped. -/
def std_remove_cv : ObjType → ObjType
  | ObjType.named _ _ id => ObjType.named false false id
  | ObjType.pointer _ _ T => ObjType.pointer false false T
  | ObjType.array T n => ObjType.array (std_remove_cv T) n
  | ObjType.function id => ObjType.function id
  | ObjType.reference_wrapper _ _ T => ObjType.reference_wrapper false false T

/-- The library trait `std::decay`: with `U` the type without its reference,
an array `U` gives a pointer to its element type, a function `U` gives a
pointer to it, and any other `U` gives `std::remove_cv<U>`. -/
def std_decay (T : CType) : ObjType :=
  match std_remove_reference T with
  | ObjType.array E _ => ObjType.pointer false false E
  | ObjType.function id => ObjType.pointer false false (ObjType.function id)
  | U => std_remove_cv U

/-- The trait `tuple_element_decay`: the specialization for
`std::reference_wrapper<T>` has `typedef T& type;`, the primary template has
`typedef typename std::decay<T>::type type;`.  The specialization is selected
only when the argument is the type `std::reference_wrapper<T>` itself. -/
def tuple_element_decay : CType → CType
  | CType.object (ObjType.reference_wrapper false false T) => CType.lref T
  | T => CType.object (std_decay T)

/-- The alias `tuple_element_decay_t<T>`,
`typename tuple_element_decay<T>::type`. -/
def tuple_element_decay_t (T : CType) : CType :=
  tuple_element_decay T

/-- Whether an expression given to `makeTuple` is an lvalue (a named variable)
or an rvalue (a temporary, the result of `std::move`). -/
inductive ValueCategory where
  | lvalue
  | rvalue
  deriving DecidableEq

/-- Deduction of `TArgs` for the forwarding reference `TArgs && ...args` of
`makeTuple`, from the type `A` of the argument expression: `A &` for an lvalue,
`A` for an rvalue. -/
def deduce_TArgs : ValueCategory → ObjType → CType
  | ValueCategory.lvalue, A => CType.lref A
  | ValueCategory.rvalue, A => CType.object A

/-- Which class template an element type selects as head: the specialization
`Tuple<THead &, TTail...>` for an lvalue reference, the recursive class
`Tuple<THead, TTail...>` otherwise. -/
def CType.kind : CType → Kind
  | CType.lref _ => Kind.reference
  | _ => Kind.value

/-- Whether a type has no top-level `const` or `volatile` qualifier. -/
def ObjType.unqualified : ObjType → Bool
  | ObjType.named c v _ => !c && !v
  | ObjType.pointer c v _ => !c && !v
  | ObjType.array T _ => ObjType.unqualified T
  | ObjType.function _ => true
  | ObjType.reference_wrapper c v _ => !c && !v

/-- Whether an argument type is an explicit reference wrapper, however it is
supplied: `std::reference_wrapper<T>`, possibly qualified, or a reference to
it. -/
def CType.isReferenceWrapper (T : CType) : Bool :=
  match std_remove_reference T with
  | ObjType.reference_wrapper _ _ _ => true
  | _ => false

/-- The trait `tuple_accessor<VIndex, TTail...>` on a list of element types.
The result is the pair of its members: the argument list of `tuple_type`
(a `Tuple<...>`) and `value_type`.  The primary template is declared but not
defined, so there is no result on the empty list; the specialization for
index 0 gives `Tuple<THead, TTail...>` and `THead`; the specialization for the
other indices gives the members of `tuple_accessor<VIndex - 1, TTail...>`. -/
def tuple_accessor {τ : Type} : Nat → List τ → Option (List τ × τ)
  | _, [] => none
  | 0, THead :: TTail => some (THead :: TTail, THead)
  | VIndex + 1, _ :: TTail => tuple_accessor VIndex TTail

/-- The alias `tuple_element_t<VIndex, THead, TTail...>`,
`tuple_accessor<...>::value_type`. -/
def tuple_element_t {τ : Type} (VIndex : Nat) (Ts : List τ) : Option τ :=
  (tuple_accessor VIndex Ts).map Prod.snd

/-- The alias `tuple_t<VIndex, THead, TTail...>`,
`tuple_accessor<...>::tuple_type`, given by its argument list. -/
def tuple_t {τ : Type} (VIndex : Nat) (Ts : List τ) : Option (List τ) :=
  (tuple_accessor VIndex Ts).map Prod.fst

/-! # Properties -/

/-! ## Memory -/

@[simp]
theorem Heap.read_write_same {α : Type} (h : Heap α) (l : Nat) (v : α) :
    (h.write l v).read l = v := by
  simp [Heap.read, Heap.write]

@[simp]
theorem Heap.read_write_ne {α : Type} (h : Heap α) {k l : Nat} (v : α) (hne : k ≠ l) :
    (h.write l v).read k = h.read k := by
  simp [Heap.read, Heap.write, hne]

@[simp]
theorem Heap.next_write {α : Type} (h : Heap α) (l : Nat) (v : α) :
    (h.write l v).next = h.next := rfl

@[simp]
theorem Heap.alloc_fst {α : Type} (h : Heap α) (v : α) : (h.alloc v).1 = h.next := rfl

@[simp]
theorem Heap.alloc_next {α : Type} (h : Heap α) (v : α) :
    (h.alloc v).2.next = h.next + 1 := rfl

@[simp]
theorem Heap.read_alloc_same {α : Type} (h : Heap α) (v : α) :
    (h.alloc v).2.read h.next = v := by
  simp [Heap.read, Heap.alloc]

@[simp]
theorem Heap.read_alloc_ne {α : Type} (h : Heap α) {k : Nat} (v : α) (hne : k ≠ h.next) :
    (h.alloc v).2.read k = h.read k := by
  simp [Heap.read, Heap.alloc, hne]

/-! ## Accessors -/

theorem Tuple.Length_eq {ks : List Kind} (t : Tuple ks) :
    t.Length = if ks = [] then none else some ks.length := by
  cases t <;> simp [Tuple.Length]

@[simp]
theorem Tuple.get_nil (i : Nat) : Tuple.nil.get i = none := rfl

@[simp]
theorem Tuple.get_val_zero {ks : List Kind} (p : Nat) (base : Tuple ks) :
    (Tuple.val p base).get 0 = some p := by
  simp [Tuple.get, Tuple.Length, Tuple.upcast, Tuple.head]

@[simp]
theorem Tuple.get_ref_zero {ks : List Kind} (x : Nat) (base : Tuple ks) :
    (Tuple.ref x base).get 0 = some x := by
  simp [Tuple.get, Tuple.Length, Tuple.upcast, Tuple.head]

@[simp]
theorem Tuple.get_val_succ {ks : List Kind} (p : Nat) (base : Tuple ks) (i : Nat) :
    (Tuple.val p base).get (i + 1) = base.get i := by
  cases base <;> simp [Tuple.get, Tuple.Length, Tuple.upcast, Tuple.head]

@[simp]
theorem Tuple.get_ref_succ {ks : List Kind} (x : Nat) (base : Tuple ks) (i : Nat) :
    (Tuple.ref x base).get (i + 1) = base.get i := by
  cases base <;> simp [Tuple.get, Tuple.Length, Tuple.upcast, Tuple.head]

theorem Tuple.get_isSome {ks : List Kind} (t : Tuple ks) (i : Nat) (hi : i < ks.length) :
    ∃ p, t.get i = some p := by
  induction t generalizing i with
  | nil => simp at hi
  | val p base ih =>
    cases i with
    | zero => exact ⟨p, by simp⟩
    | succ j => simpa using ih j (by simpa using hi)
  | ref x base ih =>
    cases i with
    | zero => exact ⟨x, by simp⟩
    | succ j => simpa using ih j (by simpa using hi)

theorem Tuple.get_eq_none {ks : List Kind} (t : Tuple ks) (i : Nat) (hi : ks.length ≤ i) :
    t.get i = none := by
  induction t generalizing i with
  | nil => simp
  | val p base ih =>
    cases i with
    | zero => simp at hi
    | succ j => simpa using ih j (by simpa using hi)
  | ref x base ih =>
    cases i with
    | zero => simp at hi
    | succ j => simpa using ih j (by simpa using hi)

theorem Tuple.get_mem_owned {ks : List Kind} (t : Tuple ks) (i : Nat) (p : Nat)
    (hk : ks[i]? = some Kind.value) (hp : t.get i = some p) : p ∈ t.owned := by
  induction t generalizing i with
  | nil => simp at hp
  | val q base ih =>
    cases i with
    | zero => simp at hp; simp [Tuple.owned, hp]
    | succ j =>
      simp at hp hk
      simp [Tuple.owned, ih j hk hp]
  | ref x base ih =>
    cases i with
    | zero => simp at hk
    | succ j =>
      simp at hp hk
      simp [Tuple.owned, ih j hk hp]

theorem Tuple.get_mem_referents {ks : List Kind} (t : Tuple ks) (i : Nat) (p : Nat)
    (hk : ks[i]? = some Kind.reference) (hp : t.get i = some p) : p ∈ t.referents := by
  induction t generalizing i with
  | nil => simp at hp
  | val q base ih =>
    cases i with
    | zero => simp at hk
    | succ j =>
      simp at hp hk
      simp [Tuple.referents, ih j hk hp]
  | ref x base ih =>
    cases i with
    | zero => simp at hp; simp [Tuple.referents, hp]
    | succ j =>
      simp at hp hk
      simp [Tuple.referents, ih j hk hp]

/-! ## The protected constructor -/

theorem Tuple.ctor_next_le {α : Type} (args : List (Arg α)) (h : Heap α) :
    h.next ≤ (Tuple.ctor args h).2.next := by
  induction args with
  | nil => simp [Tuple.ctor]
  | cons a tail ih =>
    cases a with
    | plain v => simp only [Tuple.ctor, Heap.alloc_next]; omega
    | ref x => simpa [Tuple.ctor] using ih

theorem Tuple.ctor_read_old {α : Type} (args : List (Arg α)) (h : Heap α) (l : Nat)
    (hl : l < h.next) : (Tuple.ctor args h).2.read l = h.read l := by
  induction args with
  | nil => simp [Tuple.ctor]
  | cons a tail ih =>
    cases a with
    | plain v =>
      have hle := Tuple.ctor_next_le tail h
      simp only [Tuple.ctor]
      rw [Heap.read_alloc_ne _ _ (by omega), ih]
    | ref x => simpa [Tuple.ctor] using ih

theorem Tuple.ctor_owned_range {α : Type} (args : List (Arg α)) (h : Heap α) (p : Nat)
    (hp : p ∈ (Tuple.ctor args h).1.owned) :
    h.next ≤ p ∧ p < (Tuple.ctor args h).2.next := by
  induction args with
  | nil => simp [Tuple.ctor, Tuple.owned] at hp
  | cons a tail ih =>
    cases a with
    | plain v =>
      have hle := Tuple.ctor_next_le tail h
      simp only [Tuple.ctor, Tuple.owned, Heap.alloc_fst, List.mem_cons] at hp
      simp only [Tuple.ctor, Heap.alloc_next]
      rcases hp with hp | hp
      · omega
      · have := ih hp
        omega
    | ref x =>
      simp only [Tuple.ctor, Tuple.owned] at hp
      simpa [Tuple.ctor] using ih hp

theorem Tuple.ctor_owned_nodup {α : Type} (args : List (Arg α)) (h : Heap α) :
    (Tuple.ctor args h).1.owned.Nodup := by
  induction args with
  | nil => simp [Tuple.ctor, Tuple.owned]
  | cons a tail ih =>
    cases a with
    | plain v =>
      simp only [Tuple.ctor, Tuple.owned, Heap.alloc_fst, List.nodup_cons]
      refine ⟨fun hmem => ?_, ih⟩
      have := (Tuple.ctor_owned_range tail h _ hmem).2
      omega
    | ref x => simpa [Tuple.ctor, Tuple.owned] using ih

theorem Tuple.ctor_get_plain {α : Type} (args : List (Arg α)) (h : Heap α) (i : Nat) (v : α)
    (ha : args[i]? = some (Arg.plain v)) :
    ∃ p, (Tuple.ctor args h).1.get i = some p ∧ (Tuple.ctor args h).2.read p = v := by
  induction args generalizing i with
  | nil => simp at ha
  | cons a tail ih =>
    cases i with
    | zero =>
      simp only [List.getElem?_cons_zero, Option.some.injEq] at ha
      subst ha
      exact ⟨(Tuple.ctor tail h).2.next, by simp [Tuple.ctor], by simp [Tuple.ctor]⟩
    | succ j =>
      simp only [List.getElem?_cons_succ] at ha
      obtain ⟨p, hget, hread⟩ := ih j ha
      have hk : (tail.map Arg.kind)[j]? = some Kind.value := by
        simp [List.getElem?_map, ha, Arg.kind]
      have hlt := (Tuple.ctor_owned_range tail h p (Tuple.get_mem_owned _ j p hk hget)).2
      cases a with
      | plain w =>
        refine ⟨p, by simpa [Tuple.ctor] using hget, ?_⟩
        simp only [Tuple.ctor]
        rw [Heap.read_alloc_ne _ _ (by omega), hread]
      | ref x => exact ⟨p, by simpa [Tuple.ctor] using hget, by simpa [Tuple.ctor] using hread⟩

theorem Tuple.ctor_get_ref {α : Type} (args : List (Arg α)) (h : Heap α) (i : Nat) (x : Nat)
    (ha : args[i]? = some (Arg.ref x)) : (Tuple.ctor args h).1.get i = some x := by
  induction args generalizing i with
  | nil => simp at ha
  | cons a tail ih =>
    cases i with
    | zero =>
      simp only [List.getElem?_cons_zero, Option.some.injEq] at ha
      subst ha
      simp [Tuple.ctor]
    | succ j =>
      simp only [List.getElem?_cons_succ] at ha
      cases a with
      | plain w => simpa [Tuple.ctor] using ih j ha
      | ref y => simpa [Tuple.ctor] using ih j ha

/-! ## The move constructor -/

theorem Tuple.moveCtor_next_le {α : Type} (moved : α → α) {ks : List Kind} (t : Tuple ks)
    (h : Heap α) : h.next ≤ (Tuple.moveCtor moved t h).2.next := by
  induction t with
  | nil => simp [Tuple.moveCtor]
  | val p base ih => simp only [Tuple.moveCtor, Heap.next_write, Heap.alloc_next]; omega
  | ref x base ih => simpa [Tuple.moveCtor] using ih

theorem Tuple.moveCtor_read_old {α : Type} (moved : α → α) {ks : List Kind} (t : Tuple ks)
    (h : Heap α) (l : Nat) (hl : l < h.next) (hno : l ∉ t.owned) :
    (Tuple.moveCtor moved t h).2.read l = h.read l := by
  induction t with
  | nil => simp [Tuple.moveCtor]
  | val p base ih =>
    have hle := Tuple.moveCtor_next_le moved base h
    simp only [Tuple.owned, List.mem_cons, not_or] at hno
    simp only [Tuple.moveCtor]
    rw [Heap.read_write_ne _ _ hno.1, Heap.read_alloc_ne _ _ (by omega), ih hno.2]
  | ref x base ih =>
    simp only [Tuple.owned] at hno
    simpa [Tuple.moveCtor] using ih hno

theorem Tuple.moveCtor_get_ref {α : Type} (moved : α → α) {ks : List Kind} (t : Tuple ks)
    (h : Heap α) (i : Nat) (hk : ks[i]? = some Kind.reference) :
    (Tuple.moveCtor moved t h).1.get i = t.get i := by
  induction t generalizing i with
  | nil => simp at hk
  | val p base ih =>
    cases i with
    | zero => simp at hk
    | succ j => simpa [Tuple.moveCtor] using ih j (by simpa using hk)
  | ref x base ih =>
    cases i with
    | zero => simp [Tuple.moveCtor]
    | succ j => simpa [Tuple.moveCtor] using ih j (by simpa using hk)

theorem Tuple.moveCtor_get_val {α : Type} (moved : α → α) {ks : List Kind} (t : Tuple ks)
    (h : Heap α) (i : Nat) (p : Nat) (hown : ∀ q ∈ t.owned, q < h.next)
    (hnd : t.owned.Nodup) (hk : ks[i]? = some Kind.value) (hp : t.get i = some p) :
    ∃ q, (Tuple.moveCtor moved t h).1.get i = some q ∧ h.next ≤ q ∧
      q < (Tuple.moveCtor moved t h).2.next ∧ (Tuple.moveCtor moved t h).2.read q = h.read p := by
  induction t generalizing i with
  | nil => simp at hk
  | val p0 base ih =>
    have hle := Tuple.moveCtor_next_le moved base h
    simp only [Tuple.owned, List.mem_cons, forall_eq_or_imp] at hown
    simp only [Tuple.owned, List.nodup_cons] at hnd
    cases i with
    | zero =>
      simp only [Tuple.get_val_zero, Option.some.injEq] at hp
      subst hp
      refine ⟨(Tuple.moveCtor moved base h).2.next, by simp [Tuple.moveCtor], hle, ?_, ?_⟩
      · simp [Tuple.moveCtor]
      · simp only [Tuple.moveCtor]
        rw [Heap.read_write_ne _ _ (by omega), Heap.read_alloc_same,
          Tuple.moveCtor_read_old moved base h _ hown.1 hnd.1]
    | succ j =>
      simp only [Tuple.get_val_succ] at hp
      obtain ⟨q, hget, hge, hlt, hread⟩ := ih j hown.2 hnd.2 (by simpa using hk) hp
      refine ⟨q, by simpa [Tuple.moveCtor] using hget, hge, ?_, ?_⟩
      · simp only [Tuple.moveCtor, Heap.next_write, Heap.alloc_next]; omega
      · simp only [Tuple.moveCtor]
        rw [Heap.read_write_ne _ _ (by omega), Heap.read_alloc_ne _ _ (by omega), hread]
  | ref x base ih =>
    simp only [Tuple.owned] at hown hnd
    cases i with
    | zero => simp at hk
    | succ j =>
      simp only [Tuple.get_ref_succ] at hp
      obtain ⟨q, hget, hge, hlt, hread⟩ := ih j hown hnd (by simpa using hk) hp
      exact ⟨q, by simpa [Tuple.moveCtor] using hget, hge, by simpa [Tuple.moveCtor] using hlt,
        by simpa [Tuple.moveCtor] using hread⟩

/-! ## Construction through `makeTuple` -/

/-- C1: for every argument list whose explicitly referenced variables exist,
and every index `i` below the number of arguments, `get<i>()` on the tuple
returned by `makeTuple` is well-formed and, read in the memory left by the
construction, yields the value argument `i` had at the call. -/
theorem makeTuple_get {α : Type} (moved : α → α) (args : List (Arg α)) (h : Heap α) (i : Nat)
    (hargs : ∀ x, Arg.ref x ∈ args → x < h.next) (hi : i < args.length) :
    ∃ p, (makeTuple moved args h).1.get i = some p ∧
      (makeTuple moved args h).2.read p = (args[i]).value h := by
  have hown : ∀ q ∈ (Tuple.ctor args h).1.owned, q < (Tuple.ctor args h).2.next :=
    fun q hq => (Tuple.ctor_owned_range args h q hq).2
  have hnd := Tuple.ctor_owned_nodup args h
  have hle := Tuple.ctor_next_le args h
  have hsome : args[i]? = some args[i] := List.getElem?_eq_getElem hi
  cases ha : args[i] with
  | plain v =>
    rw [ha] at hsome
    obtain ⟨p, hget, hread⟩ := Tuple.ctor_get_plain args h i v hsome
    have hk : (args.map Arg.kind)[i]? = some Kind.value := by
      simp [List.getElem?_map, hsome, Arg.kind]
    obtain ⟨q, hq, _, _, hqread⟩ :=
      Tuple.moveCtor_get_val moved (Tuple.ctor args h).1 (Tuple.ctor args h).2 i p hown hnd hk hget
    exact ⟨q, hq, by simp only [makeTuple, Arg.value]; rw [hqread, hread]⟩
  | ref x =>
    rw [ha] at hsome
    have hget := Tuple.ctor_get_ref args h i x hsome
    have hk : (args.map Arg.kind)[i]? = some Kind.reference := by
      simp [List.getElem?_map, hsome, Arg.kind]
    have hx : x < h.next := hargs x (List.getElem?_mem hsome)
    have hno : x ∉ (Tuple.ctor args h).1.owned := fun hmem => by
      have := (Tuple.ctor_owned_range args h x hmem).1
      omega
    refine ⟨x, ?_, ?_⟩
    · simp only [makeTuple]
      rw [Tuple.moveCtor_get_ref moved _ _ i hk, hget]
    · simp only [makeTuple, Arg.value]
      rw [Tuple.moveCtor_read_old moved _ _ x (by omega) hno, Tuple.ctor_read_old args h x hx]

theorem makeTuple_get_witness :
    (∀ x, Arg.ref x ∈ [Arg.plain 5, Arg.ref 1, Arg.plain 7] → x < exampleHeap.next) ∧
    1 < [Arg.plain 5, Arg.ref 1, Arg.plain 7].length ∧
    ∃ p, (makeTuple (fun _ => 0) [Arg.plain 5, Arg.ref 1, Arg.plain 7] exampleHeap).1.get 1
        = some p ∧
      (makeTuple (fun _ => 0) [Arg.plain 5, Arg.ref 1, Arg.plain 7] exampleHeap).2.read p = 20 :=
  have hargs : ∀ x, Arg.ref x ∈ [Arg.plain 5, Arg.ref 1, Arg.plain 7] → x < exampleHeap.next := by
    intro x hx
    simp at hx
    subst hx
    decide
  ⟨hargs, by decide,
    makeTuple_get (fun _ => 0) [Arg.plain 5, Arg.ref 1, Arg.plain 7] exampleHeap 1 hargs
      (by decide)⟩

/-- C2 (as stated, refuted): `makeTuple` called with no argument returns the
empty base `Tuple<>`, on which no `Length` constant is declared, so reading
`Length` does not yield 0. -/
theorem makeTuple_nil_Length_ne_zero :
    (makeTuple (fun _ => 0) ([] : List (Arg Nat)) exampleHeap).1.Length = none ∧
    ¬ (makeTuple (fun _ => 0) ([] : List (Arg Nat)) exampleHeap).1.Length = some 0 := by
  decide

/-- C2 (amended): for every non-empty argument list, whatever mix of copied and
explicitly referenced arguments, the `Length` constant of the tuple returned by
`makeTuple` equals the number of arguments. -/
theorem makeTuple_Length {α : Type} (moved : α → α) (args : List (Arg α)) (h : Heap α)
    (hne : args ≠ []) : (makeTuple moved args h).1.Length = some args.length := by
  rw [Tuple.Length_eq]
  simp [hne]

theorem makeTuple_Length_witness :
    [Arg.plain 5, Arg.ref 1, Arg.plain 7] ≠ [] ∧
    (makeTuple (fun _ => 0) [Arg.plain 5, Arg.ref 1, Arg.plain 7] exampleHeap).1.Length
      = some 3 :=
  ⟨by simp, makeTuple_Length (fun _ => 0) [Arg.plain 5, Arg.ref 1, Arg.plain 7] exampleHeap
    (by simp)⟩

/-- C3: for `t = makeTuple( std::ref( x ) )`, `get<0>()` is an lvalue for the
storage of `x` itself: in every later memory, a value assigned to `x` is read
through `t.get<0>()`, and a value assigned through `t.get<0>()` is read from
`x`. -/
theorem makeTuple_ref_aliases {α : Type} (moved : α → α) (h : Heap α) (x : Nat) :
    ∃ p, (makeTuple moved [Arg.ref x] h).1.get 0 = some p ∧
      (∀ (h1 : Heap α) (v : α), (h1.write x v).read p = v) ∧
      (∀ (h1 : Heap α) (w : α), (h1.write p w).read x = w) := by
  refine ⟨x, ?_, ?_, ?_⟩
  · simp [makeTuple, Tuple.ctor, Tuple.moveCtor]
  · intro h1 v; simp
  · intro h1 w; simp

/-- C4: for an existing variable `x` and `t = makeTuple( x )`, `get<0>()` is an
lvalue for a cell other than `x` that holds the value `x` had at the call, and
`x` still holds that value; hence in every later memory an assignment to `x`
leaves `t.get<0>()` unchanged and an assignment through `t.get<0>()` leaves `x`
unchanged. -/
theorem makeTuple_plain_independent {α : Type} (moved : α → α) (h : Heap α) (x : Nat)
    (hx : x < h.next) :
    ∃ p, (makeTuple moved [Arg.plain (h.read x)] h).1.get 0 = some p ∧
      (makeTuple moved [Arg.plain (h.read x)] h).2.read p = h.read x ∧
      (makeTuple moved [Arg.plain (h.read x)] h).2.read x = h.read x ∧
      (∀ v : α, ((makeTuple moved [Arg.plain (h.read x)] h).2.write x v).read p = h.read x) ∧
      (∀ w : α, ((makeTuple moved [Arg.plain (h.read x)] h).2.write p w).read x = h.read x) ∧
      (∀ (h1 : Heap α) (v : α), (h1.write x v).read p = h1.read p) ∧
      (∀ (h1 : Heap α) (w : α), (h1.write p w).read x = h1.read x) := by
  have hp : (makeTuple moved [Arg.plain (h.read x)] h).1.get 0 = some (h.next + 1) := by
    simp [makeTuple, Tuple.ctor, Tuple.moveCtor]
  have hrp : (makeTuple moved [Arg.plain (h.read x)] h).2.read (h.next + 1) = h.read x := by
    simp only [makeTuple, Tuple.ctor, Tuple.moveCtor, Heap.alloc_fst, Heap.alloc_next]
    rw [Heap.read_write_ne _ _ (by omega), Heap.read_alloc_same]
    exact Heap.read_alloc_same (h.alloc (h.read x)).2 _
  have hrx : (makeTuple moved [Arg.plain (h.read x)] h).2.read x = h.read x := by
    simp only [makeTuple, Tuple.ctor, Tuple.moveCtor, Heap.alloc_fst, Heap.alloc_next]
    rw [Heap.read_write_ne _ _ (by omega), Heap.read_alloc_ne _ _ (by simp; omega),
      Heap.read_alloc_ne _ _ (by omega)]
  have hne : h.next + 1 ≠ x := by omega
  refine ⟨h.next + 1, hp, hrp, hrx, ?_, ?_, ?_, ?_⟩
  · intro v
    rw [Heap.read_write_ne _ _ hne, hrp]
  · intro w
    rw [Heap.read_write_ne _ _ (Ne.symm hne), hrx]
  · intro h1 v
    rw [Heap.read_write_ne _ _ hne]
  · intro h1 w
    rw [Heap.read_write_ne _ _ (Ne.symm hne)]

theorem makeTuple_plain_independent_witness :
    1 < exampleHeap.next ∧
    ∃ p, (makeTuple (fun _ => 0) [Arg.plain (exampleHeap.read 1)] exampleHeap).1.get 0 = some p ∧
      (makeTuple (fun _ => 0) [Arg.plain (exampleHeap.read 1)] exampleHeap).2.read p
        = exampleHeap.read 1 ∧
      (makeTuple (fun _ => 0) [Arg.plain (exampleHeap.read 1)] exampleHeap).2.read 1
        = exampleHeap.read 1 ∧
      (∀ v : Nat, ((makeTuple (fun _ => 0) [Arg.plain (exampleHeap.read 1)] exampleHeap).2.write
        1 v).read p = exampleHeap.read 1) ∧
      (∀ w : Nat, ((makeTuple (fun _ => 0) [Arg.plain (exampleHeap.read 1)] exampleHeap).2.write
        p w).read 1 = exampleHeap.read 1) ∧
      (∀ (h1 : Heap Nat) (v : Nat), (h1.write 1 v).read p = h1.read p) ∧
      (∀ (h1 : Heap Nat) (w : Nat), (h1.write p w).read 1 = h1.read 1) :=
  ⟨by decide, makeTuple_plain_independent (fun _ => 0) exampleHeap 1 (by decide)⟩

/-! ## The copy constructor -/

theorem Tuple.copyCtor_next_le {α : Type} {ks : List Kind} (t : Tuple ks) (h : Heap α) :
    h.next ≤ (t.copyCtor h).2.next := by
  induction t with
  | nil => simp [Tuple.copyCtor]
  | val p base ih => simp only [Tuple.copyCtor, Heap.alloc_next]; omega
  | ref x base ih => simpa [Tuple.copyCtor] using ih

theorem Tuple.copyCtor_read_old {α : Type} {ks : List Kind} (t : Tuple ks) (h : Heap α)
    (l : Nat) (hl : l < h.next) : (t.copyCtor h).2.read l = h.read l := by
  induction t with
  | nil => simp [Tuple.copyCtor]
  | val p base ih =>
    have hle := Tuple.copyCtor_next_le base h
    simp only [Tuple.copyCtor]
    rw [Heap.read_alloc_ne _ _ (by omega), ih]
  | ref x base ih => simpa [Tuple.copyCtor] using ih

theorem Tuple.copyCtor_get_ref {α : Type} {ks : List Kind} (t : Tuple ks) (h : Heap α)
    (i : Nat) (hk : ks[i]? = some Kind.reference) : (t.copyCtor h).1.get i = t.get i := by
  induction t generalizing i with
  | nil => simp at hk
  | val p base ih =>
    cases i with
    | zero => simp at hk
    | succ j => simpa [Tuple.copyCtor] using ih j (by simpa using hk)
  | ref x base ih =>
    cases i with
    | zero => simp [Tuple.copyCtor]
    | succ j => simpa [Tuple.copyCtor] using ih j (by simpa using hk)

theorem Tuple.copyCtor_get_val {α : Type} {ks : List Kind} (t : Tuple ks) (h : Heap α)
    (i : Nat) (p : Nat) (hown : ∀ q ∈ t.owned, q < h.next)
    (hk : ks[i]? = some Kind.value) (hp : t.get i = some p) :
    ∃ q, (t.copyCtor h).1.get i = some q ∧ h.next ≤ q ∧ q < (t.copyCtor h).2.next ∧
      (t.copyCtor h).2.read q = h.read p := by
  induction t generalizing i with
  | nil => simp at hk
  | val p0 base ih =>
    have hle := Tuple.copyCtor_next_le base h
    simp only [Tuple.owned, List.mem_cons, forall_eq_or_imp] at hown
    cases i with
    | zero =>
      simp only [Tuple.get_val_zero, Option.some.injEq] at hp
      subst hp
      refine ⟨(base.copyCtor h).2.next, by simp [Tuple.copyCtor], hle, ?_, ?_⟩
      · simp [Tuple.copyCtor]
      · simp only [Tuple.copyCtor]
        rw [Heap.read_alloc_same, Tuple.copyCtor_read_old base h _ hown.1]
    | succ j =>
      simp only [Tuple.get_val_succ] at hp
      obtain ⟨q, hget, hge, hlt, hread⟩ := ih j hown.2 (by simpa using hk) hp
      refine ⟨q, by simpa [Tuple.copyCtor] using hget, hge, ?_, ?_⟩
      · simp only [Tuple.copyCtor, Heap.alloc_next]; omega
      · simp only [Tuple.copyCtor]
        rw [Heap.read_alloc_ne _ _ (by omega), hread]
  | ref x base ih =>
    simp only [Tuple.owned] at hown
    cases i with
    | zero => simp at hk
    | succ j =>
      simp only [Tuple.get_ref_succ] at hp
      obtain ⟨q, hget, hge, hlt, hread⟩ := ih j hown (by simpa using hk) hp
      exact ⟨q, by simpa [Tuple.copyCtor] using hget, hge, by simpa [Tuple.copyCtor] using hlt,
        by simpa [Tuple.copyCtor] using hread⟩

/-! ## Copy assignment -/

theorem Tuple.copyAssign_read_other {α : Type} {ks : List Kind} (self other : Tuple ks)
    (h : Heap α) (l : Nat) (hl : ∀ j, self.get j ≠ some l) :
    (self.copyAssign other h).read l = h.read l := by
  induction self with
  | nil => cases other; simp [Tuple.copyAssign]
  | val p base ih =>
    cases other with
    | val q obase =>
      have h0 : l ≠ p := fun e => hl 0 (by simp [e])
      simp only [Tuple.copyAssign]
      rw [Heap.read_write_ne _ _ h0]
      exact ih obase (fun j => by simpa using hl (j + 1))
  | ref x base ih =>
    cases other with
    | ref y obase =>
      have h0 : l ≠ x := fun e => hl 0 (by simp [e])
      simp only [Tuple.copyAssign]
      rw [Heap.read_write_ne _ _ h0]
      exact ih obase (fun j => by simpa using hl (j + 1))

theorem Tuple.copyAssign_read_slot {α : Type} {ks : List Kind} (self other : Tuple ks)
    (h : Heap α) (i x y : Nat) (hx : other.get i = some x) (hy : self.get i = some y)
    (hafter : ∀ j, i < j → self.get j ≠ some x) (hbefore : ∀ j, j < i → self.get j ≠ some y) :
    (self.copyAssign other h).read y = h.read x := by
  induction self generalizing i with
  | nil => simp at hy
  | val p base ih =>
    cases other with
    | val q obase =>
      cases i with
      | zero =>
        simp only [Tuple.get_val_zero, Option.some.injEq] at hx hy
        subst hx hy
        simp only [Tuple.copyAssign, Heap.read_write_same]
        exact Tuple.copyAssign_read_other base obase h _
          (fun j => by simpa using hafter (j + 1) (by omega))
      | succ k =>
        simp only [Tuple.get_val_succ] at hx hy
        have h0 : y ≠ p := fun e => hbefore 0 (by omega) (by simp [e])
        simp only [Tuple.copyAssign]
        rw [Heap.read_write_ne _ _ h0]
        exact ih obase k hx hy (fun j hj => by simpa using hafter (j + 1) (by omega))
          (fun j hj => by simpa using hbefore (j + 1) (by omega))
  | ref p base ih =>
    cases other with
    | ref q obase =>
      cases i with
      | zero =>
        simp only [Tuple.get_ref_zero, Option.some.injEq] at hx hy
        subst hx hy
        simp only [Tuple.copyAssign, Heap.read_write_same]
        exact Tuple.copyAssign_read_other base obase h _
          (fun j => by simpa using hafter (j + 1) (by omega))
      | succ k =>
        simp only [Tuple.get_ref_succ] at hx hy
        have h0 : y ≠ p := fun e => hbefore 0 (by omega) (by simp [e])
        simp only [Tuple.copyAssign]
        rw [Heap.read_write_ne _ _ h0]
        exact ih obase k hx hy (fun j hj => by simpa using hafter (j + 1) (by omega))
          (fun j hj => by simpa using hbefore (j + 1) (by omega))

/-! ## Swap -/

theorem read_std_swap_left {α : Type} (a b : Nat) (h : Heap α) :
    (std_swap a b h).read a = h.read b := by
  by_cases e : a = b
  · subst e; simp [std_swap]
  · simp [std_swap, Heap.read_write_ne _ _ e]

theorem read_std_swap_right {α : Type} (a b : Nat) (h : Heap α) :
    (std_swap a b h).read b = h.read a := by
  simp [std_swap]

theorem read_std_swap_other {α : Type} (a b l : Nat) (h : Heap α) (ha : l ≠ a) (hb : l ≠ b) :
    (std_swap a b h).read l = h.read l := by
  simp [std_swap, Heap.read_write_ne _ _ ha, Heap.read_write_ne _ _ hb]

theorem swap_read_other {α : Type} {ks : List Kind} (self other : Tuple ks) (h : Heap α)
    (l : Nat) (hs : ∀ j, self.get j ≠ some l) (ho : ∀ j, other.get j ≠ some l) :
    (swap self other h).read l = h.read l := by
  induction self with
  | nil => cases other; simp [swap]
  | val p base ih =>
    cases other with
    | val q obase =>
      have h0 : l ≠ p := fun e => hs 0 (by simp [e])
      have h1 : l ≠ q := fun e => ho 0 (by simp [e])
      simp only [swap]
      rw [read_std_swap_other _ _ _ _ h0 h1]
      exact ih obase (fun j => by simpa using hs (j + 1)) (fun j => by simpa using ho (j + 1))
  | ref p base ih =>
    cases other with
    | ref q obase =>
      have h0 : l ≠ p := fun e => hs 0 (by simp [e])
      have h1 : l ≠ q := fun e => ho 0 (by simp [e])
      simp only [swap]
      rw [read_std_swap_other _ _ _ _ h0 h1]
      exact ih obase (fun j => by simpa using hs (j + 1)) (fun j => by simpa using ho (j + 1))

theorem swap_read_slot {α : Type} {ks : List Kind} (self other : Tuple ks) (h : Heap α)
    (i x y : Nat) (hx : self.get i = some x) (hy : other.get i = some y)
    (hs : ∀ j, j ≠ i → self.get j ≠ some x ∧ self.get j ≠ some y)
    (ho : ∀ j, j ≠ i → other.get j ≠ some x ∧ other.get j ≠ some y) :
    (swap self other h).read x = h.read y ∧ (swap self other h).read y = h.read x := by
  induction self generalizing i with
  | nil => simp at hx
  | val p base ih =>
    cases other with
    | val q obase =>
      cases i with
      | zero =>
        simp only [Tuple.get_val_zero, Option.some.injEq] at hx hy
        subst hx hy
        simp only [swap, read_std_swap_left, read_std_swap_right]
        exact ⟨swap_read_other base obase h _
            (fun j => by simpa using (hs (j + 1) (by omega)).2)
            (fun j => by simpa using (ho (j + 1) (by omega)).2),
          swap_read_other base obase h _
            (fun j => by simpa using (hs (j + 1) (by omega)).1)
            (fun j => by simpa using (ho (j + 1) (by omega)).1)⟩
      | succ k =>
        simp only [Tuple.get_val_succ] at hx hy
        have hxp : x ≠ p := fun e => (hs 0 (by omega)).1 (by simp [e])
        have hyp : y ≠ p := fun e => (hs 0 (by omega)).2 (by simp [e])
        have hxq : x ≠ q := fun e => (ho 0 (by omega)).1 (by simp [e])
        have hyq : y ≠ q := fun e => (ho 0 (by omega)).2 (by simp [e])
        simp only [swap]
        rw [read_std_swap_other _ _ _ _ hxp hxq, read_std_swap_other _ _ _ _ hyp hyq]
        exact ih obase k hx hy
          (fun j hj => by simpa using hs (j + 1) (by omega))
          (fun j hj => by simpa using ho (j + 1) (by omega))
  | ref p base ih =>
    cases other with
    | ref q obase =>
      cases i with
      | zero =>
        simp only [Tuple.get_ref_zero, Option.some.injEq] at hx hy
        subst hx hy
        simp only [swap, read_std_swap_left, read_std_swap_right]
        exact ⟨swap_read_other base obase h _
            (fun j => by simpa using (hs (j + 1) (by omega)).2)
            (fun j => by simpa using (ho (j + 1) (by omega)).2),
          swap_read_other base obase h _
            (fun j => by simpa using (hs (j + 1) (by omega)).1)
            (fun j => by simpa using (ho (j + 1) (by omega)).1)⟩
      | succ k =>
        simp only [Tuple.get_ref_succ] at hx hy
        have hxp : x ≠ p := fun e => (hs 0 (by omega)).1 (by simp [e])
        have hyp : y ≠ p := fun e => (hs 0 (by omega)).2 (by simp [e])
        have hxq : x ≠ q := fun e => (ho 0 (by omega)).1 (by simp [e])
        have hyq : y ≠ q := fun e => (ho 0 (by omega)).2 (by simp [e])
        simp only [swap]
        rw [read_std_swap_other _ _ _ _ hxp hxq, read_std_swap_other _ _ _ _ hyp hyq]
        exact ih obase k hx hy
          (fun j hj => by simpa using hs (j + 1) (by omega))
          (fun j hj => by simpa using ho (j + 1) (by omega))

/-! ## Claims on copy assignment, swap, copy construction and move assignment -/

/-- C5 (as stated, refuted): with `a`'s only slot bound to the variable at
cell 0 and `b`'s to the variable at cell 1, after `b = a` the slot of `b` still
denotes cell 1, not the referent of the slot of `a`, and the value 99 written
through `b.get<0>()` is not read through `a.get<0>()`, which yields 10. -/
theorem copyAssign_rebinds_counterexample :
    exampleRefY.get 0 = some 1 ∧ exampleRefX.get 0 = some 0 ∧
    ((exampleRefY.copyAssign exampleRefX exampleHeap).write 1 99).read 0 = 10 := by
  decide

/-- C5 (amended): copy assignment `b = a` at an aliased index `i`, where the
slot of `a` refers to `x`, the slot of `b` refers to `y`, and no other slot of
`b` denotes `x` or `y`: the slot of `b` keeps referring to `y`, which receives
the value of `x`; a write through `b.get<i>()` is read through `a.get<i>()`
when `x` and `y` are the same variable, and leaves `a.get<i>()` at the value
of `x` otherwise. -/
theorem copyAssign_ref_slot {α : Type} {ks : List Kind} (a b : Tuple ks) (h : Heap α)
    (i x y : Nat) (hk : ks[i]? = some Kind.reference)
    (ha : a.get i = some x) (hb : b.get i = some y)
    (hsep : ∀ j, j ≠ i → b.get j ≠ some x ∧ b.get j ≠ some y) :
    y ∈ b.referents ∧
    (b.copyAssign a h).read y = h.read x ∧
    (∀ w, x = y → ((b.copyAssign a h).write y w).read x = w) ∧
    (∀ w, x ≠ y → ((b.copyAssign a h).write y w).read x = h.read x) := by
  refine ⟨Tuple.get_mem_referents b i y hk hb, ?_, ?_, ?_⟩
  · exact Tuple.copyAssign_read_slot b a h i x y ha hb (fun j hj => (hsep j (by omega)).1)
      (fun j hj => (hsep j (by omega)).2)
  · intro w e
    subst e
    simp
  · intro w hne
    rw [Heap.read_write_ne _ _ hne]
    refine Tuple.copyAssign_read_other b a h x (fun j => ?_)
    by_cases e : j = i
    · subst e
      rw [hb]
      exact fun hxy => hne (Option.some.inj hxy).symm
    · exact (hsep j e).1

theorem copyAssign_ref_slot_witness :
    ([Kind.value, Kind.reference])[1]? = some Kind.reference ∧
    exampleA.get 1 = some 0 ∧ exampleB.get 1 = some 1 ∧
    (∀ j, j ≠ 1 → exampleB.get j ≠ some 0 ∧ exampleB.get j ≠ some 1) ∧
    (1 ∈ exampleB.referents ∧
      (exampleB.copyAssign exampleA exampleHeap).read 1 = exampleHeap.read 0 ∧
      (∀ w, 0 = 1 → ((exampleB.copyAssign exampleA exampleHeap).write 1 w).read 0 = w) ∧
      (∀ w, 0 ≠ 1 →
        ((exampleB.copyAssign exampleA exampleHeap).write 1 w).read 0 = exampleHeap.read 0)) :=
  have hsep : ∀ j, j ≠ 1 → exampleB.get j ≠ some 0 ∧ exampleB.get j ≠ some 1 := by
    intro j hj
    rcases j with _ | _ | j
    · decide
    · exact absurd rfl hj
    · simp [exampleB]
  ⟨by decide, by decide, by decide, hsep,
    copyAssign_ref_slot exampleA exampleB exampleHeap 1 0 1 (by decide) (by decide) (by decide) hsep⟩

/-- C6 (as stated, refuted): `a` has both reference members bound to the
variable at cell 0, `b` has them bound to the variables at the cells 1 and 2.
Before the swap `b.get<1>()` reads 30; after `swap( a, b )`, `a.get<1>()`
reads 20. -/
theorem swap_shared_referent_counterexample :
    exampleRefXX.get 1 = some 0 ∧ exampleRefYZ.get 1 = some 2 ∧
    exampleHeap.read 2 = 30 ∧
    (swap exampleRefXX exampleRefYZ exampleHeap).read 0 = 20 := by
  decide

/-- C6 (amended): for two tuples `a`, `b` of the same concrete type and every
index `i` below the length such that no slot of `a` or `b` at another index
denotes the storage of slot `i` of `a` or of `b`: after `swap( a, b )`,
`a.get<i>()` reads the value `b.get<i>()` had before, and `b.get<i>()` reads
the value `a.get<i>()` had before. -/
theorem swap_get {α : Type} {ks : List Kind} (a b : Tuple ks) (h : Heap α) (i : Nat)
    (hi : i < ks.length)
    (hsep : ∀ j, j ≠ i → a.get j ≠ a.get i ∧ a.get j ≠ b.get i ∧
      b.get j ≠ a.get i ∧ b.get j ≠ b.get i) :
    ∃ x y, a.get i = some x ∧ b.get i = some y ∧
      (swap a b h).read x = h.read y ∧ (swap a b h).read y = h.read x := by
  obtain ⟨x, hx⟩ := Tuple.get_isSome a i hi
  obtain ⟨y, hy⟩ := Tuple.get_isSome b i hi
  rw [hx, hy] at hsep
  exact ⟨x, y, hx, hy, swap_read_slot a b h i x y hx hy
    (fun j hj => ⟨(hsep j hj).1, (hsep j hj).2.1⟩)
    (fun j hj => ⟨(hsep j hj).2.2.1, (hsep j hj).2.2.2⟩)⟩

theorem swap_get_witness :
    1 < [Kind.value, Kind.reference].length ∧
    (∀ j, j ≠ 1 → exampleA.get j ≠ exampleA.get 1 ∧ exampleA.get j ≠ exampleB.get 1 ∧
      exampleB.get j ≠ exampleA.get 1 ∧ exampleB.get j ≠ exampleB.get 1) ∧
    ∃ x y, exampleA.get 1 = some x ∧ exampleB.get 1 = some y ∧
      (swap exampleA exampleB exampleHeap).read x = exampleHeap.read y ∧
      (swap exampleA exampleB exampleHeap).read y = exampleHeap.read x :=
  have hsep : ∀ j, j ≠ 1 → exampleA.get j ≠ exampleA.get 1 ∧ exampleA.get j ≠ exampleB.get 1 ∧
      exampleB.get j ≠ exampleA.get 1 ∧ exampleB.get j ≠ exampleB.get 1 := by
    intro j hj
    rcases j with _ | _ | j
    · decide
    · exact absurd rfl hj
    · simp [exampleA, exampleB]
  ⟨by decide, hsep, swap_get exampleA exampleB exampleHeap 1 (by decide) hsep⟩

/-- C7 (as stated, refuted): with `a`'s only slot bound to the variable at
cell 0 and `b`'s to the variable at cell 1, after `swap( a, b )` the slot of
`a` still denotes cell 0: a later assignment of 99 to the variable at cell 1 is
not read through `a.get<0>()`, which yields 20, the value swapped into cell 0,
and a later assignment of 77 to the variable at cell 0 is not read through
`b.get<0>()`, which yields 10. -/
theorem swap_referents_counterexample :
    exampleRefX.get 0 = some 0 ∧ exampleRefY.get 0 = some 1 ∧
    ((swap exampleRefX exampleRefY exampleHeap).write 1 99).read 0 = 20 ∧
    ((swap exampleRefX exampleRefY exampleHeap).write 0 77).read 1 = 10 := by
  decide

/-- C7 (amended): for tuples `a` and `b` of the same type whose slot `i` is
aliased, `a`'s referring to `x` and `b`'s to `y`, with no other slot of `a` or
`b` denoting `x` or `y`: after `swap( a, b )` the values of `x` and `y` are
exchanged, while `a`'s slot still refers to `x` and `b`'s to `y` (a later
write to `x` is read through `a.get<i>()`, and, `x` and `y` being distinct, a
later write to `y` is not). -/
theorem swap_ref_slot {α : Type} {ks : List Kind} (a b : Tuple ks) (h : Heap α)
    (i x y : Nat) (hk : ks[i]? = some Kind.reference)
    (ha : a.get i = some x) (hb : b.get i = some y)
    (hsa : ∀ j, j ≠ i → a.get j ≠ some x ∧ a.get j ≠ some y)
    (hsb : ∀ j, j ≠ i → b.get j ≠ some x ∧ b.get j ≠ some y) :
    x ∈ a.referents ∧ y ∈ b.referents ∧
    (swap a b h).read x = h.read y ∧ (swap a b h).read y = h.read x ∧
    (∀ w, ((swap a b h).write x w).read x = w) ∧
    (∀ w, x ≠ y → ((swap a b h).write y w).read x = h.read y) := by
  have hsw := swap_read_slot a b h i x y ha hb hsa hsb
  refine ⟨Tuple.get_mem_referents a i x hk ha, Tuple.get_mem_referents b i y hk hb,
    hsw.1, hsw.2, fun w => by simp, fun w hne => ?_⟩
  rw [Heap.read_write_ne _ _ hne, hsw.1]

theorem swap_ref_slot_witness :
    ([Kind.value, Kind.reference])[1]? = some Kind.reference ∧
    exampleA.get 1 = some 0 ∧ exampleB.get 1 = some 1 ∧
    (∀ j, j ≠ 1 → exampleA.get j ≠ some 0 ∧ exampleA.get j ≠ some 1) ∧
    (∀ j, j ≠ 1 → exampleB.get j ≠ some 0 ∧ exampleB.get j ≠ some 1) ∧
    (0 ∈ exampleA.referents ∧ 1 ∈ exampleB.referents ∧
      (swap exampleA exampleB exampleHeap).read 0 = exampleHeap.read 1 ∧
      (swap exampleA exampleB exampleHeap).read 1 = exampleHeap.read 0 ∧
      (∀ w, ((swap exampleA exampleB exampleHeap).write 0 w).read 0 = w) ∧
      (∀ w, 0 ≠ 1 →
        ((swap exampleA exampleB exampleHeap).write 1 w).read 0 = exampleHeap.read 1)) :=
  have hsa : ∀ j, j ≠ 1 → exampleA.get j ≠ some 0 ∧ exampleA.get j ≠ some 1 := by
    intro j hj
    rcases j with _ | _ | j
    · decide
    · exact absurd rfl hj
    · simp [exampleA]
  have hsb : ∀ j, j ≠ 1 → exampleB.get j ≠ some 0 ∧ exampleB.get j ≠ some 1 := by
    intro j hj
    rcases j with _ | _ | j
    · decide
    · exact absurd rfl hj
    · simp [exampleB]
  ⟨by decide, by decide, by decide, hsa, hsb,
    swap_ref_slot exampleA exampleB exampleHeap 1 0 1 (by decide) (by decide) (by decide)
      hsa hsb⟩

/-- C8: for an existing tuple `a` and every owned index `i`: the copy
constructed from `a` stores its slot `i` in a cell of its own, so an
assignment through `get<i>()` of the copy leaves `a.get<i>()` unchanged; and
after copy assignment `b = a` onto another tuple object `b` (one whose own
storage is disjoint from that of `a`), an assignment through `b.get<i>()`
leaves `a.get<i>()` unchanged. -/
theorem copy_owned_independent {α : Type} {ks : List Kind} (a b : Tuple ks) (h : Heap α)
    (i : Nat) (hk : ks[i]? = some Kind.value) (hown : ∀ q ∈ a.owned, q < h.next)
    (hdisj : ∀ q ∈ a.owned, q ∉ b.owned) :
    ∃ p, a.get i = some p ∧
      (∃ q, (a.copyCtor h).1.get i = some q ∧ q ≠ p ∧
        ∀ w, ((a.copyCtor h).2.write q w).read p = (a.copyCtor h).2.read p) ∧
      (∃ q, b.get i = some q ∧ q ≠ p ∧
        ∀ w, ((b.copyAssign a h).write q w).read p = (b.copyAssign a h).read p) := by
  have hi : i < ks.length := by
    rcases Nat.lt_or_ge i ks.length with hlt | hge
    · exact hlt
    · rw [List.getElem?_eq_none hge] at hk
      cases hk
  obtain ⟨p, hp⟩ := Tuple.get_isSome a i hi
  obtain ⟨q, hq⟩ := Tuple.get_isSome b i hi
  have hpa := Tuple.get_mem_owned a i p hk hp
  have hqb := Tuple.get_mem_owned b i q hk hq
  obtain ⟨c, hc, hge, _, _⟩ := Tuple.copyCtor_get_val a h i p hown hk hp
  have hplt := hown p hpa
  have hcp : p ≠ c := by omega
  have hqp : p ≠ q := fun e => hdisj p hpa (e ▸ hqb)
  exact ⟨p, hp, ⟨c, hc, Ne.symm hcp, fun w => Heap.read_write_ne _ _ hcp⟩,
    ⟨q, hq, Ne.symm hqp, fun w => Heap.read_write_ne _ _ hqp⟩⟩

theorem copy_owned_independent_witness :
    ([Kind.value, Kind.reference])[0]? = some Kind.value ∧
    (∀ q ∈ exampleA.owned, q < exampleHeap.next) ∧
    (∀ q ∈ exampleA.owned, q ∉ exampleB.owned) ∧
    ∃ p, exampleA.get 0 = some p ∧
      (∃ q, (exampleA.copyCtor exampleHeap).1.get 0 = some q ∧ q ≠ p ∧
        ∀ w, ((exampleA.copyCtor exampleHeap).2.write q w).read p
          = (exampleA.copyCtor exampleHeap).2.read p) ∧
      (∃ q, exampleB.get 0 = some q ∧ q ≠ p ∧
        ∀ w, ((exampleB.copyAssign exampleA exampleHeap).write q w).read p
          = (exampleB.copyAssign exampleA exampleHeap).read p) :=
  have hown : ∀ q ∈ exampleA.owned, q < exampleHeap.next := by decide
  have hdisj : ∀ q ∈ exampleA.owned, q ∉ exampleB.owned := by decide
  ⟨by decide, hown, hdisj,
    copy_owned_independent exampleA exampleB exampleHeap 0 (by decide) hown hdisj⟩

/-- C9: for every tuple `a` and every aliased index `i`, slot `i` of the copy
constructed from `a` is bound to the referent of slot `i` of `a`: both
`get<i>()` denote the same cell, so a value assigned through `get<i>()` of the
copy is read through `a.get<i>()`. -/
theorem copyCtor_ref_shared {α : Type} {ks : List Kind} (a : Tuple ks) (h : Heap α) (i : Nat)
    (hk : ks[i]? = some Kind.reference) :
    ∃ p q, a.get i = some p ∧ (a.copyCtor h).1.get i = some q ∧ q = p ∧
      ∀ w, ((a.copyCtor h).2.write q w).read p = w := by
  have hi : i < ks.length := by
    rcases Nat.lt_or_ge i ks.length with hlt | hge
    · exact hlt
    · rw [List.getElem?_eq_none hge] at hk
      cases hk
  obtain ⟨p, hp⟩ := Tuple.get_isSome a i hi
  exact ⟨p, p, hp, by rw [Tuple.copyCtor_get_ref a h i hk, hp], rfl, fun w => by simp⟩

theorem copyCtor_ref_shared_witness :
    ([Kind.value, Kind.reference])[1]? = some Kind.reference ∧
    ∃ p q, exampleA.get 1 = some p ∧ (exampleA.copyCtor exampleHeap).1.get 1 = some q ∧ q = p ∧
      ∀ w, ((exampleA.copyCtor exampleHeap).2.write q w).read p = w :=
  ⟨by decide, copyCtor_ref_shared exampleA exampleHeap 1 (by decide)⟩

/-- C10 (as stated, refuted): with `a`'s only slot bound to the variable at
cell 0 and `b`'s to the variable at cell 1, after `a = std::move( b )` the slot
of `a` still denotes cell 0 and not the referent of the slot of `b`: a later
assignment of 99 to the variable at cell 1 is not read through `a.get<0>()`,
which yields 20.  Move construction from `b`, in contrast, binds the slot to
cell 1. -/
theorem moveAssign_referent_counterexample :
    exampleRefX.get 0 = some 0 ∧ exampleRefY.get 0 = some 1 ∧
    ((exampleRefX.moveAssign exampleRefY exampleHeap).write 1 99).read 0 = 20 ∧
    (Tuple.moveCtor (fun _ => 0) exampleRefY exampleHeap).1.get 0 = some 1 := by
  decide

/-- C10 (amended): move assignment `a = std::move( b )` at an aliased index
`i`, where the slot of `a` refers to `x`, the slot of `b` refers to `y`, and no
other slot of `a` or `b` denotes `x` or `y`: afterwards the slot of `a` still
refers to `x`, which holds the value `y` had, and `y` holds the value `x` had
(a later write to `y`, distinct from `x`, is not read through `a.get<i>()`);
move construction from `b` binds slot `i` of the new tuple to `y`. -/
theorem moveAssign_ref_slot {α : Type} {ks : List Kind} (moved : α → α) (a b : Tuple ks)
    (h : Heap α) (i x y : Nat) (hk : ks[i]? = some Kind.reference)
    (ha : a.get i = some x) (hb : b.get i = some y)
    (hsa : ∀ j, j ≠ i → a.get j ≠ some x ∧ a.get j ≠ some y)
    (hsb : ∀ j, j ≠ i → b.get j ≠ some x ∧ b.get j ≠ some y) :
    (a.moveAssign b h).read x = h.read y ∧ (a.moveAssign b h).read y = h.read x ∧
    (∀ w, x ≠ y → ((a.moveAssign b h).write y w).read x = h.read y) ∧
    (Tuple.moveCtor moved b h).1.get i = some y := by
  have hsw := swap_read_slot a b h i x y ha hb hsa hsb
  refine ⟨hsw.1, hsw.2, fun w hne => ?_, ?_⟩
  · simp only [Tuple.moveAssign]
    rw [Heap.read_write_ne _ _ hne, hsw.1]
  · rw [Tuple.moveCtor_get_ref moved b h i hk, hb]

theorem moveAssign_ref_slot_witness :
    ([Kind.value, Kind.reference])[1]? = some Kind.reference ∧
    exampleA.get 1 = some 0 ∧ exampleB.get 1 = some 1 ∧
    (∀ j, j ≠ 1 → exampleA.get j ≠ some 0 ∧ exampleA.get j ≠ some 1) ∧
    (∀ j, j ≠ 1 → exampleB.get j ≠ some 0 ∧ exampleB.get j ≠ some 1) ∧
    ((exampleA.moveAssign exampleB exampleHeap).read 0 = exampleHeap.read 1 ∧
      (exampleA.moveAssign exampleB exampleHeap).read 1 = exampleHeap.read 0 ∧
      (∀ w, 0 ≠ 1 →
        ((exampleA.moveAssign exampleB exampleHeap).write 1 w).read 0 = exampleHeap.read 1) ∧
      (Tuple.moveCtor (fun _ => 0) exampleB exampleHeap).1.get 1 = some 1) :=
  have hsa : ∀ j, j ≠ 1 → exampleA.get j ≠ some 0 ∧ exampleA.get j ≠ some 1 := by
    intro j hj
    rcases j with _ | _ | j
    · decide
    · exact absurd rfl hj
    · simp [exampleA]
  have hsb : ∀ j, j ≠ 1 → exampleB.get j ≠ some 0 ∧ exampleB.get j ≠ some 1 := by
    intro j hj
    rcases j with _ | _ | j
    · decide
    · exact absurd rfl hj
    · simp [exampleB]
  ⟨by decide, by decide, by decide, hsa, hsb,
    moveAssign_ref_slot (fun _ => 0) exampleA exampleB exampleHeap 1 0 1 (by decide) (by decide)
      (by decide) hsa hsb⟩

/-! ## Slots and the storage they denote -/

theorem Tuple.get_lt {ks : List Kind} (t : Tuple ks) (i p : Nat) (hp : t.get i = some p) :
    i < ks.length := by
  rcases Nat.lt_or_ge i ks.length with hlt | hge
  · exact hlt
  · rw [Tuple.get_eq_none t i hge] at hp
    cases hp

theorem Tuple.get_mem_cells {ks : List Kind} (t : Tuple ks) (i p : Nat)
    (hp : t.get i = some p) : p ∈ t.owned ∨ p ∈ t.referents := by
  induction t generalizing i with
  | nil => simp at hp
  | val q base ih =>
    cases i with
    | zero => simp at hp; simp [Tuple.owned, hp]
    | succ j =>
      simp only [Tuple.get_val_succ] at hp
      rcases ih j hp with hm | hm
      · exact Or.inl (by simp [Tuple.owned, hm])
      · exact Or.inr (by simpa [Tuple.referents] using hm)
  | ref x base ih =>
    cases i with
    | zero => simp at hp; simp [Tuple.referents, hp]
    | succ j =>
      simp only [Tuple.get_ref_succ] at hp
      rcases ih j hp with hm | hm
      · exact Or.inl (by simpa [Tuple.owned] using hm)
      · exact Or.inr (by simp [Tuple.referents, hm])

theorem Tuple.get_ne_of_owned {ks : List Kind} (t : Tuple ks) (i j p q : Nat)
    (hnd : t.owned.Nodup) (hsep : ∀ x ∈ t.referents, x ∉ t.owned) (hij : i ≠ j)
    (hp : t.get i = some p) (hq : t.get j = some q) (hk : ks[i]? = some Kind.value) :
    p ≠ q := by
  induction t generalizing i j with
  | nil => simp at hp
  | val p0 base ih =>
    simp only [Tuple.owned, List.nodup_cons] at hnd
    simp only [Tuple.owned, Tuple.referents, List.mem_cons, not_or] at hsep
    cases i with
    | zero =>
      cases j with
      | zero => exact absurd rfl hij
      | succ j1 =>
        simp only [Tuple.get_val_zero, Option.some.injEq] at hp
        simp only [Tuple.get_val_succ] at hq
        subst hp
        rcases Tuple.get_mem_cells base j1 q hq with hm | hm
        · exact fun e => hnd.1 (e ▸ hm)
        · exact fun e => (hsep q hm).1 e.symm
    | succ i1 =>
      simp only [Tuple.get_val_succ] at hp
      have hk1 : _ := hk
      simp only [List.getElem?_cons_succ] at hk1
      cases j with
      | zero =>
        simp only [Tuple.get_val_zero, Option.some.injEq] at hq
        subst hq
        have hm := Tuple.get_mem_owned base i1 p hk1 hp
        exact fun e => hnd.1 (e ▸ hm)
      | succ j1 =>
        simp only [Tuple.get_val_succ] at hq
        exact ih i1 j1 hnd.2 (fun x hx => (hsep x hx).2) (by omega) hp hq hk1
  | ref x0 base ih =>
    simp only [Tuple.owned] at hnd
    simp only [Tuple.owned, Tuple.referents, List.mem_cons, forall_eq_or_imp] at hsep
    cases i with
    | zero => simp at hk
    | succ i1 =>
      simp only [Tuple.get_ref_succ] at hp
      have hk1 : _ := hk
      simp only [List.getElem?_cons_succ] at hk1
      cases j with
      | zero =>
        simp only [Tuple.get_ref_zero, Option.some.injEq] at hq
        subst hq
        have hm := Tuple.get_mem_owned base i1 p hk1 hp
        exact fun e => hsep.1 (e ▸ hm)
      | succ j1 =>
        simp only [Tuple.get_ref_succ] at hq
        exact ih i1 j1 hnd hsep.2 (by omega) hp hq hk1

theorem Tuple.referents_eq_nil {ks : List Kind} (t : Tuple ks)
    (hall : ∀ k ∈ ks, k = Kind.value) : t.referents = [] := by
  induction t with
  | nil => rfl
  | val p base ih =>
    simp only [Tuple.referents]
    exact ih (fun k hk => hall k (List.mem_cons_of_mem _ hk))
  | ref x base ih =>
    have := hall Kind.reference (List.mem_cons_self _ _)
    cases this

theorem Tuple.head_eq_get_zero {ks : List Kind} (t : Tuple ks) : t.head = t.get 0 := by
  cases t <;> simp [Tuple.head]

theorem Tuple.tail_eq_get {ks : List Kind} (t : Tuple ks) :
    t.tail = t.get (ks.length - 1) := by
  cases t <;> simp [Tuple.tail, Tuple.get, Tuple.Length]

/-! ## Move construction and copy construction -/

/-- C11: move construction from an existing tuple `a` (its own cells distinct
and handed out): for every index `i` below the length, `get<i>()` of the new
tuple is well-formed; when slot `i` is owned it reads the value `a.get<i>()`
had before the move, when slot `i` is aliased it denotes the referent of slot
`i` of `a`; and the new tuple has the `Length` of `a`. -/
theorem moveCtor_get {α : Type} (moved : α → α) {ks : List Kind} (a : Tuple ks) (h : Heap α)
    (i : Nat) (hown : ∀ q ∈ a.owned, q < h.next) (hnd : a.owned.Nodup)
    (hi : i < ks.length) :
    ∃ p q, a.get i = some p ∧ (Tuple.moveCtor moved a h).1.get i = some q ∧
      (ks[i]? = some Kind.value → (Tuple.moveCtor moved a h).2.read q = h.read p) ∧
      (ks[i]? = some Kind.reference → q = p) ∧
      (Tuple.moveCtor moved a h).1.Length = a.Length := by
  obtain ⟨p, hp⟩ := Tuple.get_isSome a i hi
  have hlen : (Tuple.moveCtor moved a h).1.Length = a.Length := by
    rw [Tuple.Length_eq, Tuple.Length_eq]
  have hki : ks[i]? = some ks[i] := List.getElem?_eq_getElem hi
  cases hk : ks[i] with
  | value =>
    rw [hk] at hki
    obtain ⟨q, hq, _, _, hread⟩ := Tuple.moveCtor_get_val moved a h i p hown hnd hki hp
    exact ⟨p, q, hp, hq, fun _ => hread, fun hr => (by rw [hki] at hr; cases hr), hlen⟩
  | reference =>
    rw [hk] at hki
    refine ⟨p, p, hp, ?_, fun hv => (by rw [hki] at hv; cases hv), fun _ => rfl, hlen⟩
    rw [Tuple.moveCtor_get_ref moved a h i hki, hp]

theorem moveCtor_get_witness :
    (∀ q ∈ exampleA.owned, q < exampleHeap.next) ∧ exampleA.owned.Nodup ∧
    0 < [Kind.value, Kind.reference].length ∧
    ∃ p q, exampleA.get 0 = some p ∧
      (Tuple.moveCtor (fun _ => 0) exampleA exampleHeap).1.get 0 = some q ∧
      (([Kind.value, Kind.reference])[0]? = some Kind.value →
        (Tuple.moveCtor (fun _ => 0) exampleA exampleHeap).2.read q = exampleHeap.read p) ∧
      (([Kind.value, Kind.reference])[0]? = some Kind.reference → q = p) ∧
      (Tuple.moveCtor (fun _ => 0) exampleA exampleHeap).1.Length = exampleA.Length :=
  have hown : ∀ q ∈ exampleA.owned, q < exampleHeap.next := by decide
  have hnd : exampleA.owned.Nodup := by decide
  ⟨hown, hnd, by decide, moveCtor_get (fun _ => 0) exampleA exampleHeap 0 hown hnd (by decide)⟩

/-- C16: copy construction from an existing tuple `a` (every cell its slots
denote is handed out): for every index `i` below the length, `get<i>()` of the
copy is well-formed and reads the value `a.get<i>()` read before the copy,
`a.get<i>()` still reads that value after the copy, and the copy has the
`Length` of `a`. -/
theorem copyCtor_preserves {α : Type} {ks : List Kind} (a : Tuple ks) (h : Heap α) (i : Nat)
    (hown : ∀ q ∈ a.owned, q < h.next) (href : ∀ x ∈ a.referents, x < h.next)
    (hi : i < ks.length) :
    ∃ p q, a.get i = some p ∧ (a.copyCtor h).1.get i = some q ∧
      (a.copyCtor h).2.read q = h.read p ∧ (a.copyCtor h).2.read p = h.read p ∧
      (a.copyCtor h).1.Length = a.Length := by
  obtain ⟨p, hp⟩ := Tuple.get_isSome a i hi
  have hlen : (a.copyCtor h).1.Length = a.Length := by
    rw [Tuple.Length_eq, Tuple.Length_eq]
  have hplt : p < h.next := by
    rcases Tuple.get_mem_cells a i p hp with hm | hm
    · exact hown p hm
    · exact href p hm
  have hold := Tuple.copyCtor_read_old a h p hplt
  have hki : ks[i]? = some ks[i] := List.getElem?_eq_getElem hi
  cases hk : ks[i] with
  | value =>
    rw [hk] at hki
    obtain ⟨q, hq, _, _, hread⟩ := Tuple.copyCtor_get_val a h i p hown hki hp
    exact ⟨p, q, hp, hq, hread, hold, hlen⟩
  | reference =>
    rw [hk] at hki
    refine ⟨p, p, hp, ?_, hold, hold, hlen⟩
    rw [Tuple.copyCtor_get_ref a h i hki, hp]

theorem copyCtor_preserves_witness :
    (∀ q ∈ exampleA.owned, q < exampleHeap.next) ∧
    (∀ x ∈ exampleA.referents, x < exampleHeap.next) ∧
    0 < [Kind.value, Kind.reference].length ∧
    ∃ p q, exampleA.get 0 = some p ∧ (exampleA.copyCtor exampleHeap).1.get 0 = some q ∧
      (exampleA.copyCtor exampleHeap).2.read q = exampleHeap.read p ∧
      (exampleA.copyCtor exampleHeap).2.read p = exampleHeap.read p ∧
      (exampleA.copyCtor exampleHeap).1.Length = exampleA.Length :=
  have hown : ∀ q ∈ exampleA.owned, q < exampleHeap.next := by decide
  have href : ∀ x ∈ exampleA.referents, x < exampleHeap.next := by decide
  ⟨hown, href, by decide, copyCtor_preserves exampleA exampleHeap 0 hown href (by decide)⟩

/-! ## The Index Resolver -/

theorem tuple_accessor_eq {τ : Type} (Ts : List τ) (i : Nat) (hi : i < Ts.length) :
    tuple_accessor i Ts = some (Ts.drop i, Ts[i]) := by
  induction Ts generalizing i with
  | nil => simp at hi
  | cons THead TTail ih =>
    cases i with
    | zero => simp [tuple_accessor]
    | succ k =>
      have hk : k < TTail.length := by simpa using hi
      simp [tuple_accessor, ih k hk]

theorem tuple_accessor_eq_none {τ : Type} (Ts : List τ) (i : Nat) (hi : Ts.length ≤ i) :
    tuple_accessor i Ts = none := by
  induction Ts generalizing i with
  | nil => cases i <;> rfl
  | cons THead TTail ih =>
    cases i with
    | zero => simp at hi
    | succ k => simpa [tuple_accessor] using ih k (by simpa using hi)

/-- C13: for every type list and every index `i` below its length,
`tuple_accessor<i, T0, ..., Tn-1>` has `value_type = Ti` and `tuple_type` the
`Tuple` of the list without its first `i` types (so do the aliases
`tuple_element_t` and `tuple_t`); index 0 gives the list itself and its head
type, and index `k + 1` gives the result of index `k` on the tail list. -/
theorem tuple_accessor_resolves {τ : Type} (Ts : List τ) (i : Nat) (hi : i < Ts.length) :
    tuple_accessor i Ts = some (Ts.drop i, Ts[i]) ∧
    tuple_element_t i Ts = some Ts[i] ∧
    tuple_t i Ts = some (Ts.drop i) ∧
    (∀ (THead : τ) (TTail : List τ),
      tuple_accessor 0 (THead :: TTail) = some (THead :: TTail, THead)) ∧
    (∀ (k : Nat) (THead : τ) (TTail : List τ),
      tuple_accessor (k + 1) (THead :: TTail) = tuple_accessor k TTail) := by
  have h := tuple_accessor_eq Ts i hi
  refine ⟨h, ?_, ?_, fun _ _ => rfl, fun _ _ _ => rfl⟩
  · simp [tuple_element_t, h]
  · simp [tuple_t, h]

theorem tuple_accessor_resolves_witness :
    2 < [CType.object (ObjType.named false false 0),
      CType.object (ObjType.pointer false false (ObjType.named false false 1)),
      CType.lref (ObjType.named false false 2)].length ∧
    (tuple_accessor 2 [CType.object (ObjType.named false false 0),
      CType.object (ObjType.pointer false false (ObjType.named false false 1)),
      CType.lref (ObjType.named false false 2)]
      = some ([CType.lref (ObjType.named false false 2)], CType.lref (ObjType.named false false 2)) ∧
    tuple_element_t 2 [CType.object (ObjType.named false false 0),
      CType.object (ObjType.pointer false false (ObjType.named false false 1)),
      CType.lref (ObjType.named false false 2)]
      = some (CType.lref (ObjType.named false false 2)) ∧
    tuple_t 2 [CType.object (ObjType.named false false 0),
      CType.object (ObjType.pointer false false (ObjType.named false false 1)),
      CType.lref (ObjType.named false false 2)]
      = some [CType.lref (ObjType.named false false 2)] ∧
    (∀ (THead : CType) (TTail : List CType),
      tuple_accessor 0 (THead :: TTail) = some (THead :: TTail, THead)) ∧
    (∀ (k : Nat) (THead : CType) (TTail : List CType),
      tuple_accessor (k + 1) (THead :: TTail) = tuple_accessor k TTail)) :=
  ⟨by decide, tuple_accessor_resolves [CType.object (ObjType.named false false 0),
      CType.object (ObjType.pointer false false (ObjType.named false false 1)),
      CType.lref (ObjType.named false false 2)] 2 (by decide)⟩

/-- C14: for every type list and every index `i`, `tuple_accessor` has a result
exactly when `i` is below the length of the list, and none for an index at or
beyond it; likewise, on every tuple, `get<i>()` is available exactly when `i`
is below the length of the tuple. -/
theorem index_resolves_iff {τ : Type} (Ts : List τ) {ks : List Kind} (t : Tuple ks) (i : Nat) :
    ((tuple_accessor i Ts).isSome = true ↔ i < Ts.length) ∧
    (Ts.length ≤ i → tuple_accessor i Ts = none) ∧
    ((t.get i).isSome = true ↔ i < ks.length) ∧
    (ks.length ≤ i → t.get i = none) := by
  refine ⟨⟨fun h => ?_, fun h => ?_⟩, tuple_accessor_eq_none Ts i, ⟨fun h => ?_, fun h => ?_⟩,
    Tuple.get_eq_none t i⟩
  · rcases Nat.lt_or_ge i Ts.length with hlt | hge
    · exact hlt
    · rw [tuple_accessor_eq_none Ts i hge] at h
      cases h
  · rw [tuple_accessor_eq Ts i h]
    rfl
  · rcases Nat.lt_or_ge i ks.length with hlt | hge
    · exact hlt
    · rw [Tuple.get_eq_none t i hge] at h
      cases h
  · obtain ⟨p, hp⟩ := Tuple.get_isSome t i h
    rw [hp]
    rfl

/-! ## Accessors as references -/

/-- C15: on every tuple of length at least 1, whatever the kind of its slots,
`tail()` and `get<Length - 1>()` are well-formed and denote the same cell, so
they read the same value in every memory and a value assigned through one is
read through the other. -/
theorem tail_eq_get_last {ks : List Kind} (t : Tuple ks) (hne : ks ≠ []) :
    ∃ n p, t.Length = some n ∧ 1 ≤ n ∧ t.tail = some p ∧ t.get (n - 1) = some p ∧
      ∀ (α : Type) (h : Heap α) (v : α), (h.write p v).read p = v := by
  have hpos : 0 < ks.length := List.length_pos.mpr hne
  obtain ⟨p, hp⟩ := Tuple.get_isSome t (ks.length - 1) (by omega)
  refine ⟨ks.length, p, ?_, hpos, ?_, hp, fun α h v => by simp⟩
  · rw [Tuple.Length_eq]
    simp [hne]
  · rw [Tuple.tail_eq_get, hp]

theorem tail_eq_get_last_witness :
    [Kind.value, Kind.reference] ≠ [] ∧
    ∃ n p, exampleA.Length = some n ∧ 1 ≤ n ∧ exampleA.tail = some p ∧
      exampleA.get (n - 1) = some p ∧
      ∀ (α : Type) (h : Heap α) (v : α), (h.write p v).read p = v :=
  ⟨by decide, tail_eq_get_last exampleA (by decide)⟩

/-- C18: on every tuple and for every index `i` below its length, `get<i>()`
is an lvalue for a cell `p`: in every memory, after the assignment
`t.get<i>() = v`, reading `t.get<i>()` yields `v`; and `head()` and
`get<0>()` are lvalues for the same cell, so a value assigned through
`get<0>()` is read through `head()`. -/
theorem get_live_reference {ks : List Kind} (t : Tuple ks) (i : Nat) (hi : i < ks.length) :
    ∃ p p0, t.get i = some p ∧ t.head = some p0 ∧ t.get 0 = some p0 ∧
      (∀ (α : Type) (h : Heap α) (v : α), (h.write p v).read p = v) ∧
      (∀ (α : Type) (h : Heap α) (v : α), (h.write p0 v).read p0 = v) := by
  obtain ⟨p, hp⟩ := Tuple.get_isSome t i hi
  obtain ⟨p0, hp0⟩ := Tuple.get_isSome t 0 (by omega)
  exact ⟨p, p0, hp, by rw [Tuple.head_eq_get_zero, hp0], hp0, fun α h v => by simp,
    fun α h v => by simp⟩

theorem get_live_reference_witness :
    1 < [Kind.value, Kind.reference].length ∧
    ∃ p p0, exampleA.get 1 = some p ∧ exampleA.head = some p0 ∧ exampleA.get 0 = some p0 ∧
      (∀ (α : Type) (h : Heap α) (v : α), (h.write p v).read p = v) ∧
      (∀ (α : Type) (h : Heap α) (v : α), (h.write p0 v).read p0 = v) :=
  ⟨by decide, get_live_reference exampleA 1 (by decide)⟩

/-- C19: on a tuple whose own cells are distinct and are not referents of its
reference members, for distinct indices `i` and `j` with `get<i>()` denoting
`p` and `get<j>()` denoting `q`: unless both slots are aliased and refer to the
same variable, the assignment `t.get<i>() = v` leaves the value read through
`t.get<j>()` unchanged; the `Length` of the tuple is the constant of its type,
which no assignment changes. -/
theorem get_write_frame {α : Type} {ks : List Kind} (t : Tuple ks) (h : Heap α)
    (i j p q : Nat) (v : α) (hnd : t.owned.Nodup) (hsep : ∀ x ∈ t.referents, x ∉ t.owned)
    (hij : j ≠ i) (hp : t.get i = some p) (hq : t.get j = some q)
    (hna : ¬ (ks[i]? = some Kind.reference ∧ ks[j]? = some Kind.reference ∧ q = p)) :
    (h.write p v).read q = h.read q ∧ t.Length = some ks.length := by
  have hi := Tuple.get_lt t i p hp
  have hj := Tuple.get_lt t j q hq
  have hki : ks[i]? = some ks[i] := List.getElem?_eq_getElem hi
  have hkj : ks[j]? = some ks[j] := List.getElem?_eq_getElem hj
  have hne : q ≠ p := by
    cases hi1 : ks[i] with
    | value =>
      rw [hi1] at hki
      exact Ne.symm (Tuple.get_ne_of_owned t i j p q hnd hsep (Ne.symm hij) hp hq hki)
    | reference =>
      rw [hi1] at hki
      cases hj1 : ks[j] with
      | value =>
        rw [hj1] at hkj
        exact Tuple.get_ne_of_owned t j i q p hnd hsep hij hq hp hkj
      | reference =>
        rw [hj1] at hkj
        exact fun e => hna ⟨hki, hkj, e⟩
  refine ⟨Heap.read_write_ne _ _ hne, ?_⟩
  rw [Tuple.Length_eq]
  have : ks ≠ [] := fun e => by subst e; simp at hi
  simp [this]

theorem get_write_frame_witness :
    exampleA.owned.Nodup ∧ (∀ x ∈ exampleA.referents, x ∉ exampleA.owned) ∧ 1 ≠ 0 ∧
    exampleA.get 0 = some 3 ∧ exampleA.get 1 = some 0 ∧
    ¬ (([Kind.value, Kind.reference])[0]? = some Kind.reference ∧
      ([Kind.value, Kind.reference])[1]? = some Kind.reference ∧ 0 = 3) ∧
    ((exampleHeap.write 3 99).read 0 = exampleHeap.read 0 ∧
      exampleA.Length = some [Kind.value, Kind.reference].length) :=
  have hnd : exampleA.owned.Nodup := by decide
  have hsep : ∀ x ∈ exampleA.referents, x ∉ exampleA.owned := by decide
  ⟨hnd, hsep, by decide, by decide, by decide, by decide,
    get_write_frame exampleA exampleHeap 0 1 3 0 99 hnd hsep (by decide) (by decide) (by decide)
      (by decide)⟩

/-- C20: for two distinct tuple objects `a` and `b` of the same type with only
owned slots (the cells of each distinct, and no cell common to both), and every
index `i` below the length: after `a = std::move( b )`, `a.get<i>()` reads the
value `b.get<i>()` had before, and `b.get<i>()` reads the value `a.get<i>()`
had before. -/
theorem moveAssign_owned_swap {α : Type} {ks : List Kind} (a b : Tuple ks) (h : Heap α)
    (i : Nat) (hall : ∀ k ∈ ks, k = Kind.value) (hna : a.owned.Nodup) (hnb : b.owned.Nodup)
    (hdisj : ∀ q ∈ a.owned, q ∉ b.owned) (hi : i < ks.length) :
    ∃ p q, a.get i = some p ∧ b.get i = some q ∧
      (a.moveAssign b h).read p = h.read q ∧ (a.moveAssign b h).read q = h.read p := by
  obtain ⟨p, hp⟩ := Tuple.get_isSome a i hi
  obtain ⟨q, hq⟩ := Tuple.get_isSome b i hi
  have hkind : ∀ j, j < ks.length → ks[j]? = some Kind.value := fun j hj => by
    rw [List.getElem?_eq_getElem hj, hall _ (List.getElem_mem hj)]
  have hsa : ∀ x ∈ a.referents, x ∉ a.owned := by
    rw [Tuple.referents_eq_nil a hall]
    simp
  have hsb : ∀ x ∈ b.referents, x ∉ b.owned := by
    rw [Tuple.referents_eq_nil b hall]
    simp
  have hpa := Tuple.get_mem_owned a i p (hkind i hi) hp
  have hqb := Tuple.get_mem_owned b i q (hkind i hi) hq
  have hs : ∀ j, j ≠ i → a.get j ≠ some p ∧ a.get j ≠ some q := by
    intro j hj
    refine ⟨fun e => ?_, fun e => ?_⟩
    · exact Tuple.get_ne_of_owned a i j p p hna hsa (Ne.symm hj) hp e (hkind i hi) rfl
    · have hjl := Tuple.get_lt a j q e
      exact hdisj q (Tuple.get_mem_owned a j q (hkind j hjl) e) hqb
  have ho : ∀ j, j ≠ i → b.get j ≠ some p ∧ b.get j ≠ some q := by
    intro j hj
    refine ⟨fun e => ?_, fun e => ?_⟩
    · have hjl := Tuple.get_lt b j p e
      exact hdisj p hpa (Tuple.get_mem_owned b j p (hkind j hjl) e)
    · exact Tuple.get_ne_of_owned b i j q q hnb hsb (Ne.symm hj) hq e (hkind i hi) rfl
  exact ⟨p, q, hp, hq, swap_read_slot a b h i p q hp hq hs ho⟩

theorem moveAssign_owned_swap_witness :
    (∀ k ∈ [Kind.value], k = Kind.value) ∧ exampleValP.owned.Nodup ∧ exampleValQ.owned.Nodup ∧
    (∀ q ∈ exampleValP.owned, q ∉ exampleValQ.owned) ∧ 0 < [Kind.value].length ∧
    ∃ p q, exampleValP.get 0 = some p ∧ exampleValQ.get 0 = some q ∧
      (exampleValP.moveAssign exampleValQ exampleHeap).read p = exampleHeap.read q ∧
      (exampleValP.moveAssign exampleValQ exampleHeap).read q = exampleHeap.read p :=
  have hall : ∀ k ∈ [Kind.value], k = Kind.value := by decide
  have hna : exampleValP.owned.Nodup := by decide
  have hnb : exampleValQ.owned.Nodup := by decide
  have hdisj : ∀ q ∈ exampleValP.owned, q ∉ exampleValQ.owned := by decide
  ⟨hall, hna, hnb, hdisj, by decide,
    moveAssign_owned_swap exampleValP exampleValQ exampleHeap 0 hall hna hnb hdisj (by decide)⟩

/-! ## The Decay Rule -/

/-- C12 (as stated, refuted): for a wrapper `std::reference_wrapper<int>`
supplied as a named variable, `TArgs` is deduced as an lvalue reference to the
wrapper and the Decay Rule gives the storage type `std::reference_wrapper<int>`,
not `int &`; for a `const`-qualified wrapper supplied as an rvalue the rule
gives the same type.  Both select the recursive class, an owned slot. -/
theorem decay_wrapper_variable_counterexample :
    tuple_element_decay_t (deduce_TArgs ValueCategory.lvalue
        (ObjType.reference_wrapper false false (ObjType.named false false 0)))
      = CType.object (ObjType.reference_wrapper false false (ObjType.named false false 0)) ∧
    (tuple_element_decay_t (deduce_TArgs ValueCategory.lvalue
        (ObjType.reference_wrapper false false (ObjType.named false false 0)))).kind
      = Kind.value ∧
    tuple_element_decay_t (deduce_TArgs ValueCategory.rvalue
        (ObjType.reference_wrapper true false (ObjType.named false false 0)))
      = CType.object (ObjType.reference_wrapper false false (ObjType.named false false 0)) ∧
    (tuple_element_decay_t (deduce_TArgs ValueCategory.rvalue
        (ObjType.reference_wrapper true false (ObjType.named false false 0)))).kind
      = Kind.value :=
  ⟨rfl, rfl, rfl, rfl⟩

/-- C12 (amended): for every argument that is an unqualified
`std::reference_wrapper<T>` supplied as an rvalue (the result of `std::ref` or
`std::cref` passed directly), the Decay Rule gives the storage type `T &`
(with `T` a `const` type for `std::cref`), which selects the reference
specialization; `makeTuple` then binds the slot to the wrapped variable and
leaves the memory as it was: nothing is copied. -/
theorem decay_wrapper_rvalue {α : Type} (T : ObjType) (moved : α → α) (h : Heap α) (x : Nat) :
    tuple_element_decay_t (deduce_TArgs ValueCategory.rvalue
        (ObjType.reference_wrapper false false T)) = CType.lref T ∧
    (tuple_element_decay_t (deduce_TArgs ValueCategory.rvalue
        (ObjType.reference_wrapper false false T))).kind = (Arg.ref x : Arg α).kind ∧
    (Arg.ref x : Arg α).kind = Kind.reference ∧
    (makeTuple moved [Arg.ref x] h).1.get 0 = some x ∧
    (makeTuple moved [Arg.ref x] h).2 = h :=
  ⟨rfl, rfl, rfl, by simp [makeTuple, Tuple.ctor, Tuple.moveCtor],
    by simp [makeTuple, Tuple.ctor, Tuple.moveCtor]⟩

theorem std_decay_unqualified (T : CType) : (std_decay T).unqualified = true := by
  cases T with
  | object U => cases U <;> simp [std_decay, std_remove_reference, std_remove_cv, ObjType.unqualified]
  | lref U => cases U <;> simp [std_decay, std_remove_reference, std_remove_cv, ObjType.unqualified]
  | rref U => cases U <;> simp [std_decay, std_remove_reference, std_remove_cv, ObjType.unqualified]

theorem tuple_element_decay_of_not_wrapper (T : CType) (hnw : T.isReferenceWrapper = false) :
    tuple_element_decay T = CType.object (std_decay T) := by
  cases T with
  | object U =>
    cases U <;> first
      | rfl
      | simp [CType.isReferenceWrapper, std_remove_reference] at hnw
  | lref U => rfl
  | rref U => rfl

theorem std_decay_not_wrapper (T : CType) (hnw : T.isReferenceWrapper = false) :
    (CType.object (std_decay T)).isReferenceWrapper = false := by
  cases T with
  | object U =>
    cases U <;> first
      | rfl
      | simp [CType.isReferenceWrapper, std_remove_reference] at hnw
  | lref U =>
    cases U <;> first
      | rfl
      | simp [CType.isReferenceWrapper, std_remove_reference] at hnw
  | rref U =>
    cases U <;> first
      | rfl
      | simp [CType.isReferenceWrapper, std_remove_reference] at hnw

theorem std_decay_idem (T : CType) : std_decay (CType.object (std_decay T)) = std_decay T := by
  cases T with
  | object U => cases U <;> rfl
  | lref U => cases U <;> rfl
  | rref U => cases U <;> rfl

/-- C17: for every argument type `T` that is not an explicit reference wrapper
(neither `std::reference_wrapper<T>`, nor a qualified version of it, nor a
reference to one), the Decay Rule gives a non-reference type `U` without
top-level qualifier, which selects the recursive class (an owned slot), and the
rule applied to its own result gives the same type.  `U` is determined by the
type `A` that `T` is or refers to (`T` is `A`, `A &` or `A &&`): a fundamental
or class type or a pointer type gives `A` without its top-level `const` and
`volatile`, an array type gives the pointer to its element type, and a function
type gives the pointer to it. -/
theorem decay_plain (T : CType) (hnw : T.isReferenceWrapper = false) :
    ∃ U, tuple_element_decay_t T = CType.object U ∧ U.unqualified = true ∧
      (tuple_element_decay_t T).kind = Kind.value ∧
      tuple_element_decay_t (tuple_element_decay_t T) = tuple_element_decay_t T ∧
      ∀ A, (T = CType.object A ∨ T = CType.lref A ∨ T = CType.rref A) →
        (∀ c v id, A = ObjType.named c v id → U = ObjType.named false false id) ∧
        (∀ c v P, A = ObjType.pointer c v P → U = ObjType.pointer false false P) ∧
        (∀ E n, A = ObjType.array E n → U = ObjType.pointer false false E) ∧
        (∀ id, A = ObjType.function id →
          U = ObjType.pointer false false (ObjType.function id)) := by
  have h1 := tuple_element_decay_of_not_wrapper T hnw
  have h2 := tuple_element_decay_of_not_wrapper _ (std_decay_not_wrapper T hnw)
  refine ⟨std_decay T, h1, std_decay_unqualified T, ?_, ?_, ?_⟩
  · simp only [tuple_element_decay_t]
    rw [h1]
    rfl
  · simp only [tuple_element_decay_t]
    rw [h1, h2, std_decay_idem]
  · intro A hA
    rcases hA with rfl | rfl | rfl
    · exact ⟨fun c v id e => by subst e; rfl, fun c v P e => by subst e; rfl,
        fun E n e => by subst e; rfl, fun id e => by subst e; rfl⟩
    · exact ⟨fun c v id e => by subst e; rfl, fun c v P e => by subst e; rfl,
        fun E n e => by subst e; rfl, fun id e => by subst e; rfl⟩
    · exact ⟨fun c v id e => by subst e; rfl, fun c v P e => by subst e; rfl,
        fun E n e => by subst e; rfl, fun id e => by subst e; rfl⟩

theorem decay_plain_witness :
    (CType.lref (ObjType.named true false 0)).isReferenceWrapper = false ∧
    ∃ U, tuple_element_decay_t (CType.lref (ObjType.named true false 0)) = CType.object U ∧
      U.unqualified = true ∧
      (tuple_element_decay_t (CType.lref (ObjType.named true false 0))).kind = Kind.value ∧
      tuple_element_decay_t (tuple_element_decay_t (CType.lref (ObjType.named true false 0)))
        = tuple_element_decay_t (CType.lref (ObjType.named true false 0)) ∧
      ∀ A, (CType.lref (ObjType.named true false 0) = CType.object A ∨
          CType.lref (ObjType.named true false 0) = CType.lref A ∨
          CType.lref (ObjType.named true false 0) = CType.rref A) →
        (∀ c v id, A = ObjType.named c v id → U = ObjType.named false false id) ∧
        (∀ c v P, A = ObjType.pointer c v P → U = ObjType.pointer false false P) ∧
        (∀ E n, A = ObjType.array E n → U = ObjType.pointer false false E) ∧
        (∀ id, A = ObjType.function id →
          U = ObjType.pointer false false (ObjType.function id)) :=
  ⟨rfl, decay_plain (CType.lref (ObjType.named true false 0)) rfl⟩

/-! ## Copy assignment through reference members -/

/-- C21 (as stated, refuted): `b` has both reference members bound to the
variable at cell 0, `a` has them bound to the variables at the cells 1 and 2.
At index 1 the slot of `a` refers to the variable at cell 2, which holds 30, and
the slot of `b` to the distinct variable at cell 0; after `b = a` the variable
at cell 0 holds 20, the value assigned last through slot 0, not 30. -/
theorem copyAssign_shared_referent_counterexample :
    exampleRefYZ.get 1 = some 2 ∧ exampleRefXX.get 1 = some 0 ∧
    exampleHeap.read 2 = 30 ∧
    (exampleRefXX.copyAssign exampleRefYZ exampleHeap).read 0 = 20 := by
  decide

/-- C21 (amended): for tuples `a` and `b` of the same type whose slot `i` is
aliased, `a`'s referring to `x` and `b`'s to a distinct `y`, with no other slot
of `b` denoting `x` or `y`: after `b = a` the variable `y` holds the value `x`
had, `x` still holds that value, and the slot of `b` still refers to `y`: a
value assigned to `y` afterwards is read through `b.get<i>()`, and a value
assigned to `x` afterwards is not, `b.get<i>()` still reading the value copied
from `x`. -/
theorem copyAssign_writes_through {α : Type} {ks : List Kind} (a b : Tuple ks) (h : Heap α)
    (i x y : Nat) (hk : ks[i]? = some Kind.reference)
    (ha : a.get i = some x) (hb : b.get i = some y) (hxy : x ≠ y)
    (hsep : ∀ j, j ≠ i → b.get j ≠ some x ∧ b.get j ≠ some y) :
    (b.copyAssign a h).read y = h.read x ∧
    (b.copyAssign a h).read x = h.read x ∧
    y ∈ b.referents ∧
    (∀ w, ((b.copyAssign a h).write y w).read y = w) ∧
    (∀ w, ((b.copyAssign a h).write x w).read y = h.read x) := by
  have hy : (b.copyAssign a h).read y = h.read x :=
    Tuple.copyAssign_read_slot b a h i x y ha hb (fun j hj => (hsep j (by omega)).1)
      (fun j hj => (hsep j (by omega)).2)
  have hx : (b.copyAssign a h).read x = h.read x := by
    refine Tuple.copyAssign_read_other b a h x (fun j => ?_)
    by_cases e : j = i
    · subst e
      rw [hb]
      exact fun hyx => hxy (Option.some.inj hyx).symm
    · exact (hsep j e).1
  refine ⟨hy, hx, Tuple.get_mem_referents b i y hk hb, fun w => by simp, fun w => ?_⟩
  rw [Heap.read_write_ne _ _ (Ne.symm hxy), hy]

theorem copyAssign_writes_through_witness :
    ([Kind.value, Kind.reference])[1]? = some Kind.reference ∧
    exampleA.get 1 = some 0 ∧ exampleB.get 1 = some 1 ∧ 0 ≠ 1 ∧
    (∀ j, j ≠ 1 → exampleB.get j ≠ some 0 ∧ exampleB.get j ≠ some 1) ∧
    ((exampleB.copyAssign exampleA exampleHeap).read 1 = exampleHeap.read 0 ∧
      (exampleB.copyAssign exampleA exampleHeap).read 0 = exampleHeap.read 0 ∧
      1 ∈ exampleB.referents ∧
      (∀ w, ((exampleB.copyAssign exampleA exampleHeap).write 1 w).read 1 = w) ∧
      (∀ w, ((exampleB.copyAssign exampleA exampleHeap).write 0 w).read 1
        = exampleHeap.read 0)) :=
  have hsep : ∀ j, j ≠ 1 → exampleB.get j ≠ some 0 ∧ exampleB.get j ≠ some 1 := by
    intro j hj
    rcases j with _ | _ | j
    · decide
    · exact absurd rfl hj
    · simp [exampleB]
  ⟨by decide, by decide, by decide, by decide, hsep,
    copyAssign_writes_through exampleA exampleB exampleHeap 1 0 1 (by decide) (by decide)
      (by decide) (by decide) hsep⟩

end experimental
end TP
